import Mathlib

/-!
# EchoLecture speech-synchronization core: a shallow embedding

This file embeds, over `List Char` as the string model, the pure algorithmic
core of the EchoLecture reader and proves/refutes the specification claims
about it:

* the sentence/length chunker `chunkText` and its helper `splitLongSentence`
  (src/src/TextInput.tsx, lines 63–113);
* the progress reporter `emitProgress` and the playback driver `playQueue` /
  `speak` / chunk end/error handlers (src/src/TextInput.tsx, lines 188–305),
  modelled as explicit state passing over an `EngineState` record that holds
  the contents of the hook's mutable refs plus observation logs of the
  callback invocations;
* the edit reconciler `remapIndexAfterEdit` (src/unnamed/part_001, lines 31–49);
* the history store `saveHistoryEntry` (src/src/lib/readingHistory.ts,
  lines 51–75), modelled as a function from the stored entry list to the new
  stored entry list.

JavaScript strings are sequences of UTF-16 units; all inputs considered here
are plain-BMP text, for which `List Char` is a faithful model.  JavaScript
`\s` also matches rarer Unicode spaces; `isWs` below covers the ASCII
whitespace class, which is exact for the texts the claims quantify over.
-/

set_option maxRecDepth 8192

namespace EchoLecture

/-- The ASCII part of JavaScript's `\s` character class (and of the
whitespace trimmed by `String.prototype.trim`). -/
def isWs (c : Char) : Bool :=
  c == ' ' || c == '\t' || c == '\n' || c == '\r' || c == '\x0b' || c == '\x0c'

/-- Sentence terminators of the chunker's regex `[^.!?]+[.!?]*\s*`. -/
def isTerm (c : Char) : Bool :=
  c == '.' || c == '!' || c == '?'

/-- `text.replace(/\s+/g, " ")`: every maximal whitespace run becomes one
space.  The flag records whether the previous character was part of a
whitespace run already replaced. -/
def collapseAux : Bool → List Char → List Char
  | _, [] => []
  | prevWs, c :: rest =>
    if isWs c then
      if prevWs then collapseAux true rest
      else ' ' :: collapseAux true rest
    else c :: collapseAux false rest

def collapseWs (l : List Char) : List Char := collapseAux false l

/-- `String.prototype.trim` (both ends). -/
def trimChars (l : List Char) : List Char :=
  ((l.dropWhile isWs).reverse.dropWhile isWs).reverse

/-- `text.replace(/\s+/g, " ").trim()` — the chunker's normalization. -/
def normalizeWs (l : List Char) : List Char := trimChars (collapseWs l)

/-- `str.split(/\s+/)`.  Mode `false`: inside a field, accumulating `cur`
(reversed); mode `true`: inside a separator run.  A trailing separator run
yields a trailing empty field, and a leading one a leading empty field,
exactly as in JavaScript. -/
def splitWsGo : Bool → List Char → List Char → List (List Char)
  | false, [], cur => [cur.reverse]
  | false, c :: rest, cur =>
    if isWs c then cur.reverse :: splitWsGo true rest []
    else splitWsGo false rest (c :: cur)
  | true, [], _ => [[]]
  | true, c :: rest, _ =>
    if isWs c then splitWsGo true rest []
    else splitWsGo false rest [c]

def splitWs (l : List Char) : List (List Char) := splitWsGo false l []

/-- A speakable chunk: its text and the offset into the normalized source
text at which it starts (src/src/TextInput.tsx, lines 56–59). -/
structure Chunk where
  text : List Char
  start : Nat
deriving DecidableEq, Repr

def MAX_CHUNK_LENGTH : Nat := 220

/-- The word loop of `splitLongSentence` (src/src/TextInput.tsx, lines
63–87): state is (remaining words, `current`, `currentStart`, `cursor`). -/
def slsAux (off : Nat) : List (List Char) → List Char → Nat → Nat → List Chunk
  | [], current, currentStart, _ =>
    if current.isEmpty then [] else [⟨current, currentStart⟩]
  | w :: ws, current, currentStart, cursor =>
    if w.isEmpty then slsAux off ws current currentStart cursor
    else
      let next := if current.isEmpty then w else current ++ ' ' :: w
      if next.length ≤ MAX_CHUNK_LENGTH then
        slsAux off ws next
          (if current.isEmpty then off + cursor else currentStart)
          (cursor + w.length + 1)
      else
        (if current.isEmpty then [] else [⟨current, currentStart⟩])
          ++ slsAux off ws w (off + cursor) (cursor + w.length + 1)

def splitLongSentence (sentence : List Char) (startOffset : Nat) : List Chunk :=
  slsAux startOffset (splitWs sentence) [] startOffset 0

/-- One step of the regex `/[^.!?]+[.!?]*\s*/g`: from a position whose head
is a non-terminator, the match is a maximal run of non-terminators, then a
maximal run of terminators, then a maximal whitespace run.  Returns the
matched characters and the remainder. -/
def takeMatch (l : List Char) : List Char × List Char :=
  let a := l.takeWhile (fun c => !isTerm c)
  let r1 := l.dropWhile (fun c => !isTerm c)
  let b := r1.takeWhile isTerm
  let r2 := r1.dropWhile isTerm
  let c := r2.takeWhile isWs
  let r3 := r2.dropWhile isWs
  (a ++ b ++ c, r3)

/-- The `while ((match = sentenceRegex.exec(normalized)) !== null)` loop
(src/src/TextInput.tsx, lines 94–106), fuelled for structural recursion:
positions starting with a terminator cannot start a match, so the regex
engine advances one character; otherwise `takeMatch` is the (nonempty)
match and the scan continues after it.  Each element is
(`match.index`, `match[0]`). -/
def sentenceMatchesF : Nat → List Char → Nat → List (Nat × List Char)
  | 0, _, _ => []
  | _ + 1, [], _ => []
  | fuel + 1, ch :: rest, i =>
    if isTerm ch then sentenceMatchesF fuel rest (i + 1)
    else
      let m := takeMatch (ch :: rest)
      (i, m.1) :: sentenceMatchesF fuel m.2 (i + m.1.length)

def sentenceMatches (l : List Char) : List (Nat × List Char) :=
  sentenceMatchesF l.length l 0

/-- The loop body of `chunkText` for one regex match: trim the match to the
sentence; skip it if blank, emit it as one chunk if within
`MAX_CHUNK_LENGTH`, and word-split it otherwise
(src/src/TextInput.tsx, lines 97–106). -/
def blockOf (im : Nat × List Char) : List Chunk :=
  let s := trimChars im.2
  if s.isEmpty then []
  else if s.length ≤ MAX_CHUNK_LENGTH then [(⟨s, im.1⟩ : Chunk)]
  else splitLongSentence s im.1

/-- `chunkText` (src/src/TextInput.tsx, lines 89–113). -/
def chunkText (text : List Char) : List Chunk :=
  let normalized := normalizeWs text
  if normalized.isEmpty then [] else
  let chunks := ((sentenceMatches normalized).map blockOf).flatten
  if chunks.isEmpty then splitLongSentence normalized 0 else chunks

/-- Chunk texts joined by single spaces (`Array.prototype.join(" ")` on
texts / the separator structure of the normalized source). -/
def joinSpace : List (List Char) → List Char
  | [] => []
  | [x] => x
  | x :: y :: t => x ++ ' ' :: joinSpace (y :: t)

/-- Every whitespace character is a plain `' '`. -/
def onlySpaceWs (l : List Char) : Bool := l.all (fun c => !isWs c || c == ' ')

/-- No two adjacent whitespace characters. -/
def noTwoAdjWs : List Char → Bool
  | [] => true
  | [_] => true
  | c :: d :: rest => (!isWs c || !isWs d) && noTwoAdjWs (d :: rest)

/-- The last character (if any) is not whitespace. -/
def lastNonWs (l : List Char) : Prop :=
  ∀ c, l.getLast? = some c → isWs c = false

/-- Total cursor advance of `splitLongSentence`'s word loop over a word
list: each word accounts for its length plus one separator. -/
def sumW (ws : List (List Char)) : Nat :=
  (ws.map (fun w => w.length + 1)).sum

/-! ## Edit reconciler (src/unnamed/part_001, lines 18 and 31–49) -/

/-- `clamp(value, min, max) = Math.max(min, Math.min(max, value))`
(src/unnamed/part_001, line 18). -/
def jsClamp (value lo hi : Int) : Int := max lo (min hi value)

/-- `String.prototype.indexOf` for a pattern, scanning from position `i`. -/
def jsIndexOfFrom : List Char → List Char → Nat → Option Nat
  | [], pat, i => if pat.isEmpty then some i else none
  | c :: rest, pat, i =>
    if List.isPrefixOf pat (c :: rest) then some i
    else jsIndexOfFrom rest pat (i + 1)

/-- `haystack.indexOf(needle)`, as `none` for JavaScript's `-1`. -/
def jsIndexOf (l pat : List Char) : Option Nat := jsIndexOfFrom l pat 0

/-- `anchorStart = clamp(oldIndex - 22, 0, oldText.length)`. -/
def anchorWindowStart (oldText : List Char) (oldIndex : Int) : Int :=
  jsClamp (oldIndex - 22) 0 (oldText.length : Int)

/-- `anchorEnd = clamp(oldIndex + 22, 0, oldText.length)`. -/
def anchorWindowEnd (oldText : List Char) (oldIndex : Int) : Int :=
  jsClamp (oldIndex + 22) 0 (oldText.length : Int)

/-- `anchor = oldText.slice(anchorStart, anchorEnd).trim()`. -/
def anchorOf (oldText : List Char) (oldIndex : Int) : List Char :=
  trimChars ((oldText.take (anchorWindowEnd oldText oldIndex).toNat).drop
    (anchorWindowStart oldText oldIndex).toNat)

/-- `remapIndexAfterEdit` (src/unnamed/part_001, lines 31–49). -/
def remapIndexAfterEdit (oldText newText : List Char) (oldIndex : Int) : Int :=
  if oldText.isEmpty || newText.isEmpty then 0
  else if oldText = newText then
    jsClamp oldIndex 0 (max 0 ((newText.length : Int) - 1))
  else
    let anchor := anchorOf oldText oldIndex
    let fallback :=
      jsClamp (oldIndex + ((newText.length : Int) - (oldText.length : Int)))
        0 (max 0 ((newText.length : Int) - 1))
    if 8 ≤ anchor.length then
      match jsIndexOf newText anchor with
      | some pos =>
          jsClamp ((pos : Int) + (oldIndex - anchorWindowStart oldText oldIndex))
            0 (max 0 ((newText.length : Int) - 1))
      | none => fallback
    else fallback

/-! ## Progress estimator (src/src/TextInput.tsx, lines 213–219) -/

/-- `Math.max(0, Math.min(relativeIndex, Math.max(0, next.text.length - 1)))`:
the relative offset clamped into the chunk. -/
def clampRel (rel : Int) (len : Nat) : Nat :=
  (min rel ((len - 1 : Nat) : Int)).toNat

/-- `emitProgress` (src/src/TextInput.tsx, lines 213–219) as a partial state
transformer on `lastCharIndexRef`: given the active chunk, the last stored
absolute index, and a computed relative index, it returns the absolute index
reported to `onBoundary` (which also becomes the new stored index), or
`none` when the event is silently dropped. -/
def emitProgress (c : Chunk) (last : Nat) (rel : Int) : Option Nat :=
  let absoluteIndex := c.start + clampRel rel c.text.length
  if absoluteIndex < last then none else some absoluteIndex

/-- A session's sequence of `emitProgress` invocations: each event is the
active chunk at that moment together with the computed relative index; the
output is the list of absolute indices actually delivered to `onBoundary`. -/
def runEmits (last : Nat) : List (Chunk × Int) → List Nat
  | [] => []
  | (c, rel) :: evs =>
    match emitProgress c last rel with
    | none => runEmits last evs
    | some a => a :: runEmits a evs

/-! ## Playback driver (src/src/TextInput.tsx, lines 165–305)

The hook's mutable refs become an explicit `EngineState`.  Each `speak()`
call creates a fresh `baseOptions` record and a fresh `playQueue` closure
over it; an utterance's handlers invoke exactly the callbacks of the session
that created the utterance.  Sessions are therefore identified by a `Nat`
tag, and `boundaryCalls` / `endCalls` log which session's `onBoundary` /
`onEnd` the engine invoked, with `submitted` logging every
`speechSynthesis.speak(utterance)` call together with the session whose
closure performed it.  The backend is the adversarial environment: `pending`
holds utterances whose events have not yet been delivered, and `cancel()`
moves them to `cancelled`, from which the host may still deliver late
end/error events (cancellation is best-effort). -/

structure EngineState where
  queue : List Chunk
  lastChar : Nat
  sourceText : List Char
  activeUtt : Option (Nat × Chunk)
  pending : List (Nat × Chunk)
  cancelled : List (Nat × Chunk)
  submitted : List (Nat × Chunk)
  boundaryCalls : List (Nat × Nat)
  endCalls : List Nat
deriving DecidableEq, Repr

/-- The state after initialization: empty queue, zero progress, no logs. -/
def initEngine : EngineState :=
  ⟨[], 0, [], none, [], [], [], [], []⟩

/-- `emitProgress` as it acts on the engine state, invoked from the handlers
of an utterance created by session `sid`'s `playQueue` closure. -/
def emitProgressE (sid : Nat) (c : Chunk) (rel : Int) (st : EngineState) :
    EngineState :=
  match emitProgress c st.lastChar rel with
  | none => st
  | some a =>
    { st with lastChar := a, boundaryCalls := st.boundaryCalls ++ [(sid, a)] }

/-- `playQueue` (src/src/TextInput.tsx, lines 188–275) for session `sid`:
shift the shared queue; if empty, clear the active utterance and fire this
session's `onEnd`; otherwise build an utterance bound to this session's
options and submit it to the backend. -/
def playQueue (sid : Nat) (st : EngineState) : EngineState :=
  match st.queue with
  | [] => { st with activeUtt := none, endCalls := st.endCalls ++ [sid] }
  | next :: rest =>
    { st with
      queue := rest
      activeUtt := some (sid, next)
      submitted := st.submitted ++ [(sid, next)]
      pending := st.pending ++ [(sid, next)] }

/-- `utterance.onboundary` (src/src/TextInput.tsx, lines 258–261) for the
utterance speaking chunk `c` of session `sid`. -/
def handleBoundary (sid : Nat) (c : Chunk) (charIndex : Int)
    (st : EngineState) : EngineState :=
  emitProgressE sid c charIndex st

/-- `utterance.onend` (src/src/TextInput.tsx, lines 263–267): report the
chunk's final offset, then advance the queue. -/
def handleEnd (sid : Nat) (c : Chunk) (st : EngineState) : EngineState :=
  playQueue sid (emitProgressE sid c ((c.text.length : Int) - 1) st)

/-- `utterance.onerror` (src/src/TextInput.tsx, lines 268–271): advance the
queue, exactly like `onend` but with no final progress report. -/
def handleError (sid : Nat) (_c : Chunk) (st : EngineState) : EngineState :=
  playQueue sid st

/-- `window.speechSynthesis.cancel()`: best-effort — pending utterances are
withdrawn, but the host may still deliver their end/error events later. -/
def cancelBackend (st : EngineState) : EngineState :=
  { st with pending := [], cancelled := st.cancelled ++ st.pending }

/-- `speak` (src/src/TextInput.tsx, lines 282–305) followed by `startQueue`
(lines 178–186, with `startOffset = 0`) for a new session `sid`: blank text
is a no-op; otherwise cancel the backend, reset the progress counter, store
the source text, chunk it, install the queue and start playing. -/
def speakE (sid : Nat) (text : List Char) (st : EngineState) : EngineState :=
  if (trimChars text).isEmpty then st
  else
    let st1 := cancelBackend st
    let st2 := { st1 with sourceText := text, lastChar := 0 }
    let textChunks := chunkText text
    if textChunks.isEmpty then st2
    else playQueue sid { st2 with queue := textChunks }

/-- `stop` (src/src/TextInput.tsx, lines 165–176). -/
def stopE (st : EngineState) : EngineState :=
  cancelBackend
    { st with queue := [], activeUtt := none, sourceText := [], lastChar := 0 }

/-- After the environment delivers the event for the active chunk (`true` =
natural end, `false` = error), the handler's `playQueue` call makes the head
of the previous queue the new active chunk.  `runFrom` drives a session
from a given active chunk through a list of such event outcomes. -/
def runFrom (sid : Nat) : Option Chunk → List Bool → EngineState → EngineState
  | _, [], st => st
  | none, _ :: _, st => st
  | some c, f :: fs, st =>
    runFrom sid st.queue.head? fs
      (if f then handleEnd sid c st else handleError sid c st)

/-! ## History store (src/src/lib/readingHistory.ts) -/

def MAX_ENTRIES : Nat := 12
def MAX_TEXT_LENGTH : Nat := 180000

/-- `hash ^= text.charCodeAt(i)` then
`hash += (hash << 1) + (hash << 4) + (hash << 7) + (hash << 8) + (hash << 24)`
with JavaScript number semantics: `^` and `<<` coerce to signed 32-bit
integers, `+` is exact on these magnitudes. -/
def toUint32 (x : Int) : Nat := (x % 4294967296).toNat

def toInt32 (x : Int) : Int :=
  let u := toUint32 x
  if u < 2147483648 then (u : Int) else (u : Int) - 4294967296

def xor32 (a b : Int) : Int := toInt32 (Nat.xor (toUint32 a) (toUint32 b) : Nat)

def shl32 (a : Int) (k : Nat) : Int := toInt32 ((toUint32 a <<< k : Nat) : Int)

def hashStep (h : Int) (code : Nat) : Int :=
  let h1 := xor32 h (code : Int)
  h1 + (shl32 h1 1 + shl32 h1 4 + shl32 h1 7 + shl32 h1 8 + shl32 h1 24)

/-- `hashText` (src/src/lib/readingHistory.ts, lines 26–33), up to the final
hex rendering `(hash >>> 0).toString(16)`, which is injective and therefore
irrelevant to id equality. -/
def hashText (l : List Char) : Nat :=
  toUint32 (l.foldl (fun h c => hashStep h c.toNat) 2166136261)

inductive ReaderType where
  | pdf
  | word
deriving DecidableEq, Repr

/-- The entry id `` `${readerType}-${documentName}-${hashText(...)}` ``.
`readerType` and the hex hash contain no `-`, so the rendered string
determines and is determined by this triple. -/
structure HistoryId where
  readerType : ReaderType
  documentName : List Char
  hash : Nat
deriving DecidableEq, Repr

structure ReadingHistoryEntry where
  id : HistoryId
  readerType : ReaderType
  documentName : List Char
  text : List Char
  currentIndex : Int
deriving DecidableEq, Repr

/-- `saveHistoryEntry` (src/src/lib/readingHistory.ts, lines 51–75) as a
function from the stored entry list (`getAll()`) to the list written back
(`setAll(merged)`); the `updatedAt` wall-clock field is omitted. -/
def saveHistoryEntry (readerType : ReaderType) (documentName text : List Char)
    (currentIndex : Int) (stored : List ReadingHistoryEntry) :
    List ReadingHistoryEntry :=
  if (trimChars text).isEmpty then stored
  else
    let clipped := text.take MAX_TEXT_LENGTH
    let id : HistoryId := ⟨readerType, documentName, hashText (clipped.take 2000)⟩
    let nextEntry : ReadingHistoryEntry :=
      ⟨id, readerType, documentName, clipped,
        max 0 (min ((clipped.length : Int) - 1) currentIndex)⟩
    let existing := stored.filter (fun entry => entry.id ≠ id)
    (nextEntry :: existing).take MAX_ENTRIES

/-! ## Structural predicates on normalized text

`normalizeWs` output contains only `' '` as whitespace, isolated and not at
either end; `noBadWs`/`headNonWs` state this.  `headNotTerm`/`goodSeps`
describe the sentence-terminator placement under which the chunker's regex
scan covers the normalized text without skipping characters. -/

/-- The first character (if any) is not whitespace. -/
def headNonWs : List Char → Bool
  | [] => true
  | c :: _ => !isWs c

/-- The first character (if any) is not a sentence terminator. -/
def headNotTerm : List Char → Bool
  | [] => true
  | c :: _ => !isTerm c

/-- Every whitespace character is a single `' '` followed by a non-whitespace
character; in particular the text does not end in whitespace. -/
def noBadWs : List Char → Bool
  | [] => true
  | [c] => !isWs c
  | c :: d :: rest => (!isWs c || (c == ' ' && !isWs d)) && noBadWs (d :: rest)

/-- Terminator placement under which the sentence regex skips nothing: a
terminator immediately followed by a non-terminator is followed by
whitespace (sentences end before spaces), and the character after that
whitespace is not itself a terminator. -/
def goodSeps : List Char → Bool
  | [] => true
  | [_] => true
  | [c, d] => !isTerm c || isTerm d || isWs d
  | c :: d :: e :: rest =>
    (!isTerm c || isTerm d || isWs d) &&
    !(isTerm c && isWs d && isTerm e) &&
    goodSeps (d :: e :: rest)

/-! ## Concrete traces used by the stale-callback claim -/

/-- `speak` twice in a row: session 2 supersedes session 1; session 1's
first utterance is cancelled at the backend but its events may still
arrive. -/
def staleTraceSuperseded : EngineState :=
  speakE 2 "One. Two. Three.".toList (speakE 1 "Alpha beta.".toList initEngine)

/-- The host then delivers the (late) `end` event of session 1's cancelled
utterance, which runs session 1's `onend` handler. -/
def staleTraceAfterStaleEnd : EngineState :=
  handleEnd 1 ⟨"Alpha beta.".toList, 0⟩ staleTraceSuperseded

/-! ## Supporting lemmas -/

theorem isTerm_not_isWs {c : Char} (h : isTerm c = true) : isWs c = false := by
  rcases Bool.or_eq_true_iff.mp h with h' | h'
  · rcases Bool.or_eq_true_iff.mp h' with h'' | h'' <;>
      · rw [beq_iff_eq] at h''; subst h''; rfl
  · rw [beq_iff_eq] at h'; subst h'; rfl

theorem getLast?_mem' {α : Type} {l : List α} {a : α} (h : l.getLast? = some a) :
    a ∈ l := by
  have : a ∈ l.reverse.head? := by rw [List.head?_reverse]; exact h
  exact List.mem_reverse.mp (List.mem_of_mem_head? this)

theorem lastNonWs_nil : lastNonWs [] := by
  intro c h
  cases h

theorem lastNonWs_tail {c : Char} {l : List Char} (h : lastNonWs (c :: l))
    (hne : l ≠ []) : lastNonWs l := by
  intro d hd
  apply h
  rcases l with _ | ⟨e, t⟩
  · exact absurd rfl hne
  · rw [List.getLast?_cons_cons]
    exact hd

theorem noBadWs_tail {c : Char} {l : List Char} (h : noBadWs (c :: l) = true) :
    noBadWs l = true := by
  rcases l with _ | ⟨d, t⟩
  · rfl
  · exact (Bool.and_eq_true_iff.mp h).2

theorem noBadWs_pair {c d : Char} {l : List Char}
    (h : noBadWs (c :: d :: l) = true) (hws : isWs c = true) :
    c = ' ' ∧ isWs d = false := by
  have h1 := (Bool.and_eq_true_iff.mp h).1
  rcases Bool.or_eq_true_iff.mp h1 with h' | h'
  · rw [hws] at h'; cases h'
  · obtain ⟨h2, h3⟩ := Bool.and_eq_true_iff.mp h'
    exact ⟨beq_iff_eq.mp h2, by cases hd : isWs d <;> simp_all⟩

theorem noBadWs_lastNonWs : ∀ {l : List Char}, noBadWs l = true → lastNonWs l
  | [], _ => lastNonWs_nil
  | [c], h => by
    intro d hd
    rw [List.getLast?_singleton] at hd
    cases hd
    simpa [noBadWs] using h
  | c :: d :: t, h => by
    intro e he
    rw [List.getLast?_cons_cons] at he
    exact noBadWs_lastNonWs (noBadWs_tail h) e he

theorem noBadWs_dropWhile {p : Char → Bool} :
    ∀ {l : List Char}, noBadWs l = true → noBadWs (l.dropWhile p) = true := by
  intro l
  induction l with
  | nil => intro h; exact h
  | cons c t ih =>
    intro h
    rw [List.dropWhile_cons]
    split
    · exact ih (noBadWs_tail h)
    · exact h

theorem noBadWs_cons_nonWs {c : Char} {l : List Char} (hc : isWs c = false)
    (h : noBadWs l = true) : noBadWs (c :: l) = true := by
  rcases l with _ | ⟨d, t⟩
  · simpa [noBadWs] using hc
  · rw [noBadWs, Bool.and_eq_true_iff]
    exact ⟨by rw [hc]; rfl, h⟩

theorem noBadWs_append_left :
    ∀ {x y : List Char}, noBadWs (x ++ y) = true → lastNonWs x →
      noBadWs x = true := by
  intro x
  induction x with
  | nil => intro y _ _; rfl
  | cons c t ih =>
    intro y h hl
    rcases t with _ | ⟨d, t'⟩
    · have : isWs c = false := hl c rfl
      simpa [noBadWs] using this
    · have hcond := (Bool.and_eq_true_iff.mp (show noBadWs (c :: d :: (t' ++ y)) = true from h)).1
      have hrec : noBadWs (d :: t') = true :=
        ih (noBadWs_tail h) (lastNonWs_tail hl (by simp))
      rw [noBadWs, Bool.and_eq_true_iff]
      exact ⟨hcond, hrec⟩

theorem noTwoAdjWs_tail {c : Char} {l : List Char}
    (h : noTwoAdjWs (c :: l) = true) : noTwoAdjWs l = true := by
  rcases l with _ | ⟨d, t⟩
  · rfl
  · exact (Bool.and_eq_true_iff.mp h).2

theorem noTwoAdjWs_dropWhile {p : Char → Bool} :
    ∀ {l : List Char}, noTwoAdjWs l = true → noTwoAdjWs (l.dropWhile p) = true := by
  intro l
  induction l with
  | nil => intro h; exact h
  | cons c t ih =>
    intro h
    rw [List.dropWhile_cons]
    split
    · exact ih (noTwoAdjWs_tail h)
    · exact h

theorem noTwoAdjWs_append_left :
    ∀ {x y : List Char}, noTwoAdjWs (x ++ y) = true → noTwoAdjWs x = true := by
  intro x
  induction x with
  | nil => intro y _; rfl
  | cons c t ih =>
    intro y h
    rcases t with _ | ⟨d, t'⟩
    · rfl
    · have hcond := (Bool.and_eq_true_iff.mp (show noTwoAdjWs (c :: d :: (t' ++ y)) = true from h)).1
      rw [noTwoAdjWs, Bool.and_eq_true_iff]
      exact ⟨hcond, ih (noTwoAdjWs_tail h)⟩

theorem onlySpaceWs_sublist {s t : List Char} (h : List.Sublist s t)
    (ht : onlySpaceWs t = true) : onlySpaceWs s = true := by
  rw [onlySpaceWs, List.all_eq_true] at *
  exact fun a ha => ht a (h.subset ha)

theorem noBadWs_of : ∀ {l : List Char}, onlySpaceWs l = true →
    noTwoAdjWs l = true → lastNonWs l → noBadWs l = true
  | [], _, _, _ => rfl
  | [c], _, _, hl => by simpa [noBadWs] using hl c rfl
  | c :: d :: t, hsp, hadj, hl => by
    have hrec : noBadWs (d :: t) = true :=
      noBadWs_of (onlySpaceWs_sublist (by simp) hsp) (noTwoAdjWs_tail hadj)
        (lastNonWs_tail hl (by simp))
    rw [noBadWs, Bool.and_eq_true_iff]
    refine ⟨?_, hrec⟩
    by_cases hc : isWs c = true
    · have hsp' : (!isWs c || c == ' ') = true := by
        have := List.all_eq_true.mp hsp c (by simp)
        exact this
      have hc' : c = ' ' := by
        rcases Bool.or_eq_true_iff.mp hsp' with h' | h'
        · rw [hc] at h'; cases h'
        · exact beq_iff_eq.mp h'
      have hadj' := (Bool.and_eq_true_iff.mp hadj).1
      have hd : isWs d = false := by
        rcases Bool.or_eq_true_iff.mp hadj' with h' | h'
        · rw [hc] at h'; cases h'
        · cases hdd : isWs d <;> simp_all
      rw [hc', hd]
      simp
    · rw [Bool.not_eq_true] at hc
      rw [hc]
      rfl

theorem headNonWs_append {x y : List Char} (hx : headNonWs x = true)
    (hne : x ≠ []) : headNonWs (x ++ y) = true := by
  rcases x with _ | ⟨c, t⟩
  · exact absurd rfl hne
  · exact hx

theorem dropWhile_eq_self_of_headNonWs {l : List Char}
    (h : headNonWs l = true) : l.dropWhile isWs = l := by
  rcases l with _ | ⟨c, t⟩
  · rfl
  · exact List.dropWhile_cons_of_neg (by simpa [headNonWs] using h)

theorem headNonWs_dropWhile (l : List Char) :
    headNonWs (l.dropWhile isWs) = true := by
  rcases h : l.dropWhile isWs with _ | ⟨c, t⟩
  · rfl
  · have := List.head?_dropWhile_not isWs l
    rw [h] at this
    simp only [List.head?_cons] at this
    simpa [headNonWs] using this

theorem trimChars_decomp (l : List Char) :
    ∃ t, l.dropWhile isWs = trimChars l ++ t ∧ ∀ c ∈ t, isWs c = true := by
  refine ⟨(((l.dropWhile isWs).reverse).takeWhile isWs).reverse, ?_, ?_⟩
  · rw [trimChars]
    have h := List.takeWhile_append_dropWhile isWs (l.dropWhile isWs).reverse
    calc l.dropWhile isWs
        = ((l.dropWhile isWs).reverse).reverse := by rw [List.reverse_reverse]
      _ = (((l.dropWhile isWs).reverse).takeWhile isWs
            ++ ((l.dropWhile isWs).reverse).dropWhile isWs).reverse := by rw [h]
      _ = _ := by rw [List.reverse_append]
  · intro c hc
    rw [List.mem_reverse] at hc
    exact List.mem_takeWhile_imp hc

theorem trimChars_sublist (l : List Char) : List.Sublist (trimChars l) l := by
  have h1 : List.Sublist (((l.dropWhile isWs).reverse.dropWhile isWs).reverse)
      ((l.dropWhile isWs).reverse.reverse) :=
    (List.dropWhile_sublist isWs).reverse
  rw [List.reverse_reverse] at h1
  exact h1.trans (List.dropWhile_sublist isWs)

theorem trimChars_headNonWs (l : List Char) :
    headNonWs (trimChars l) = true := by
  obtain ⟨t, hdec, -⟩ := trimChars_decomp l
  rcases h : trimChars l with _ | ⟨c, u⟩
  · rfl
  · have hw := headNonWs_dropWhile l
    rw [hdec, h] at hw
    exact hw

theorem trimChars_lastNonWs (l : List Char) : lastNonWs (trimChars l) := by
  intro c hc
  rw [← List.head?_reverse] at hc
  rw [trimChars, List.reverse_reverse] at hc
  have := List.head?_dropWhile_not isWs (l.dropWhile isWs).reverse
  rw [hc] at this
  simpa using this

theorem trimChars_eq_self {l : List Char} (hh : headNonWs l = true)
    (hl : lastNonWs l) : trimChars l = l := by
  rw [trimChars, dropWhile_eq_self_of_headNonWs hh]
  have hrev : headNonWs l.reverse = true := by
    rcases h : l.reverse with _ | ⟨c, t⟩
    · rfl
    · have : l.getLast? = some c := by
        rw [← List.head?_reverse, h]; rfl
      simpa [headNonWs] using hl c this
  rw [dropWhile_eq_self_of_headNonWs hrev, List.reverse_reverse]

theorem trimChars_append_space {x : List Char} (hh : headNonWs x = true)
    (hl : lastNonWs x) (hx : x ≠ []) : trimChars (x ++ [' ']) = x := by
  rw [trimChars, dropWhile_eq_self_of_headNonWs (headNonWs_append hh hx)]
  rw [List.reverse_append]
  show ((' ' :: x.reverse).dropWhile isWs).reverse = x
  rw [List.dropWhile_cons_of_pos (by rfl)]
  have hrev : headNonWs x.reverse = true := by
    rcases h : x.reverse with _ | ⟨c, t⟩
    · rfl
    · have : x.getLast? = some c := by
        rw [← List.head?_reverse, h]; rfl
      simpa [headNonWs] using hl c this
  rw [dropWhile_eq_self_of_headNonWs hrev, List.reverse_reverse]

theorem trimChars_ne_nil {l : List Char} {c : Char} (hc : c ∈ l)
    (hws : isWs c = false) : trimChars l ≠ [] := by
  intro h
  obtain ⟨t, hdec, ht⟩ := trimChars_decomp l
  rw [h, List.nil_append] at hdec
  have hall : ∀ d ∈ l, isWs d = true := by
    intro d hd
    have : l = l.takeWhile isWs ++ l.dropWhile isWs :=
      (List.takeWhile_append_dropWhile isWs l).symm
    rw [this, List.mem_append] at hd
    rcases hd with hd | hd
    · exact List.mem_takeWhile_imp hd
    · rw [hdec] at hd
      exact ht d hd
  rw [hall c hc] at hws
  cases hws

theorem noTwoAdjWs_cons {a : Char} {X : List Char}
    (h1 : ∀ x, X.head? = some x → (!isWs a || !isWs x) = true)
    (h2 : noTwoAdjWs X = true) : noTwoAdjWs (a :: X) = true := by
  rcases X with _ | ⟨x, X'⟩
  · rfl
  · rw [noTwoAdjWs, Bool.and_eq_true_iff]
    exact ⟨h1 x rfl, h2⟩

theorem collapseAux_onlySpace :
    ∀ (l : List Char) (prevWs : Bool),
      onlySpaceWs (collapseAux prevWs l) = true := by
  intro l
  induction l with
  | nil => intro prevWs; rfl
  | cons c t ih =>
    intro prevWs
    rw [collapseAux]
    by_cases hc : isWs c = true
    · rw [if_pos hc]
      cases prevWs
      · rw [if_neg (by simp)]
        rw [onlySpaceWs, List.all_cons]
        exact Bool.and_eq_true_iff.mpr ⟨by rfl, ih true⟩
      · rw [if_pos rfl]
        exact ih true
    · rw [Bool.not_eq_true] at hc
      rw [if_neg (by simp [hc])]
      rw [onlySpaceWs, List.all_cons]
      exact Bool.and_eq_true_iff.mpr ⟨by rw [hc]; rfl, ih false⟩

theorem collapseAux_headNonWs :
    ∀ l : List Char, headNonWs (collapseAux true l) = true := by
  intro l
  induction l with
  | nil => rfl
  | cons c t ih =>
    rw [collapseAux]
    by_cases hc : isWs c = true
    · rw [if_pos hc, if_pos rfl]
      exact ih
    · rw [Bool.not_eq_true] at hc
      rw [if_neg (by simp [hc])]
      simpa [headNonWs] using hc

theorem collapseAux_noTwoAdj :
    ∀ (l : List Char) (prevWs : Bool),
      noTwoAdjWs (collapseAux prevWs l) = true := by
  intro l
  induction l with
  | nil => intro prevWs; rfl
  | cons c t ih =>
    intro prevWs
    rw [collapseAux]
    by_cases hc : isWs c = true
    · rw [if_pos hc]
      cases prevWs
      · rw [if_neg (by simp)]
        refine noTwoAdjWs_cons ?_ (ih true)
        intro x hx
        have hhead := collapseAux_headNonWs t
        rcases h : collapseAux true t with _ | ⟨y, Y⟩
        · rw [h] at hx; cases hx
        · rw [h] at hx hhead
          cases hx
          simp only [headNonWs] at hhead
          rw [hhead]
          simp
      · rw [if_pos rfl]
        exact ih true
    · rw [Bool.not_eq_true] at hc
      rw [if_neg (by simp [hc])]
      refine noTwoAdjWs_cons ?_ (ih false)
      intro x _
      rw [hc]
      rfl

theorem normalizeWs_noBadWs (l : List Char) :
    noBadWs (normalizeWs l) = true := by
  have honly : onlySpaceWs (normalizeWs l) = true :=
    onlySpaceWs_sublist (trimChars_sublist _) (collapseAux_onlySpace l false)
  have hadj : noTwoAdjWs (normalizeWs l) = true := by
    obtain ⟨t, hdec, -⟩ := trimChars_decomp (collapseWs l)
    have h1 : noTwoAdjWs ((collapseWs l).dropWhile isWs) = true :=
      noTwoAdjWs_dropWhile (collapseAux_noTwoAdj l false)
    rw [hdec] at h1
    exact noTwoAdjWs_append_left h1
  exact noBadWs_of honly hadj (trimChars_lastNonWs _)

theorem normalizeWs_headNonWs (l : List Char) :
    headNonWs (normalizeWs l) = true := trimChars_headNonWs _

theorem normalizeWs_lastNonWs (l : List Char) : lastNonWs (normalizeWs l) :=
  trimChars_lastNonWs _

theorem joinSpace_cons {x : List Char} {ys : List (List Char)} (h : ys ≠ []) :
    joinSpace (x :: ys) = x ++ ' ' :: joinSpace ys := by
  rcases ys with _ | ⟨y, t⟩
  · exact absurd rfl h
  · rfl

theorem joinSpace_ne_nil {w : List Char} {ws : List (List Char)}
    (hw : w ≠ []) : joinSpace (w :: ws) ≠ [] := by
  rcases ws with _ | ⟨y, t⟩
  · exact hw
  · simp [joinSpace]

theorem joinSpace_glue (x y : List Char) (t : List (List Char)) :
    joinSpace ((x ++ ' ' :: y) :: t) = x ++ ' ' :: joinSpace (y :: t) := by
  rcases t with _ | ⟨z, t'⟩
  · rfl
  · show (x ++ ' ' :: y) ++ ' ' :: joinSpace (z :: t')
        = x ++ ' ' :: joinSpace (y :: z :: t')
    rw [joinSpace_cons (by simp : (z :: t' : List (List Char)) ≠ [])]
    simp [joinSpace_cons]

theorem joinSpace_append :
    ∀ {xs ys : List (List Char)}, xs ≠ [] → ys ≠ [] →
      joinSpace (xs ++ ys) = joinSpace xs ++ ' ' :: joinSpace ys := by
  intro xs
  induction xs with
  | nil => intro ys h _; exact absurd rfl h
  | cons x xs' ih =>
    intro ys _ hy
    rcases xs' with _ | ⟨x2, xs''⟩
    · rw [List.singleton_append, joinSpace_cons hy]
      rfl
    · rw [List.cons_append,
        joinSpace_cons (by simp : (x2 :: xs'' ++ ys : List (List Char)) ≠ []),
        joinSpace_cons (by simp : (x2 :: xs'' : List (List Char)) ≠ []),
        ih (by simp) hy]
      simp

theorem joinSpace_length :
    ∀ {l : List (List Char)}, l ≠ [] → (joinSpace l).length + 1 = sumW l := by
  intro l
  induction l with
  | nil => intro h; exact absurd rfl h
  | cons x t ih =>
    intro _
    rcases t with _ | ⟨y, t'⟩
    · simp [joinSpace, sumW]
    · rw [joinSpace_cons (by simp : (y :: t' : List (List Char)) ≠ [])]
      have := ih (by simp : (y :: t' : List (List Char)) ≠ [])
      simp only [sumW, List.map_cons, List.sum_cons] at *
      rw [List.length_append]
      simp only [List.length_cons]
      omega

theorem splitWsGo_ne_nil :
    ∀ (mode : Bool) (l cur : List Char), splitWsGo mode l cur ≠ [] := by
  intro mode l
  induction l generalizing mode with
  | nil => intro cur; cases mode <;> simp [splitWsGo]
  | cons c rest ih =>
    intro cur
    cases mode <;> rw [splitWsGo] <;> split
    · simp
    · exact ih false (c :: cur)
    · exact ih true []
    · exact ih false [c]

theorem splitWsGo_spec :
    ∀ l : List Char,
      (∀ cur : List Char, noBadWs l = true → lastNonWs l →
        (∀ ch ∈ cur, isWs ch = false) →
        (cur = [] → headNonWs l = true ∧ l ≠ []) →
        joinSpace (splitWsGo false l cur) = cur.reverse ++ l ∧
        (∀ w ∈ splitWsGo false l cur, w ≠ [] ∧ ∀ ch ∈ w, isWs ch = false)) ∧
      (noBadWs l = true → lastNonWs l → headNonWs l = true → l ≠ [] →
        joinSpace (splitWsGo true l []) = l ∧
        (∀ w ∈ splitWsGo true l [], w ≠ [] ∧ ∀ ch ∈ w, isWs ch = false)) := by
  intro l
  induction l with
  | nil =>
    constructor
    · intro cur _ _ hcur hempty
      have hc : cur ≠ [] := by
        intro h
        exact (hempty h).2 rfl
      refine ⟨by simp [splitWsGo, joinSpace], ?_⟩
      intro w hw
      rw [splitWsGo, List.mem_singleton] at hw
      subst hw
      exact ⟨by simpa using hc, by intro ch hch; exact hcur ch (List.mem_reverse.mp hch)⟩
    · intro _ _ _ h
      exact absurd rfl h
  | cons c rest ih =>
    constructor
    · intro cur hn hl hcur hempty
      by_cases hc : isWs c = true
      · have hcne : cur ≠ [] := by
          intro h
          have := (hempty h).1
          rw [headNonWs, hc] at this
          cases this
        have hrest : ∃ d t, rest = d :: t ∧ isWs d = false ∧ c = ' ' := by
          rcases rest with _ | ⟨d, t⟩
          · rw [noBadWs, Bool.not_eq_true'] at hn
            rw [hn] at hc
            cases hc
          · obtain ⟨h1, h2⟩ := noBadWs_pair hn hc
            exact ⟨d, t, rfl, h2, h1⟩
        obtain ⟨d, t, rfl, hd, hsp⟩ := hrest
        have htail : noBadWs (d :: t) = true := noBadWs_tail hn
        have hltail : lastNonWs (d :: t) := lastNonWs_tail hl (by simp)
        obtain ⟨hjoin, hfields⟩ := (ih).2 htail hltail
          (by simpa [headNonWs] using hd) (by simp)
        rw [splitWsGo, if_pos hc]
        constructor
        · rw [joinSpace_cons (splitWsGo_ne_nil true (d :: t) []), hjoin, hsp]
        · intro w hw
          rcases List.mem_cons.mp hw with rfl | hw'
          · exact ⟨by simpa using hcne,
              by intro ch hch; exact hcur ch (List.mem_reverse.mp hch)⟩
          · exact hfields w hw'
      · rw [Bool.not_eq_true] at hc
        have htail : noBadWs rest = true := noBadWs_tail hn
        have hltail : lastNonWs rest := by
          rcases rest with _ | ⟨d, t⟩
          · exact lastNonWs_nil
          · exact lastNonWs_tail hl (by simp)
        obtain ⟨hjoin, hfields⟩ := (ih).1 (c :: cur) htail hltail
          (by
            intro ch hch
            rcases List.mem_cons.mp hch with rfl | hch'
            · exact hc
            · exact hcur ch hch')
          (by intro h; cases h)
        rw [splitWsGo, if_neg (by rw [hc]; simp)]
        refine ⟨?_, hfields⟩
        rw [hjoin, List.reverse_cons, List.append_assoc]
        rfl
    · intro hn hl hh hne
      have hc : isWs c = false := by simpa [headNonWs] using hh
      have htail : noBadWs rest = true := noBadWs_tail hn
      have hltail : lastNonWs rest := by
        rcases rest with _ | ⟨d, t⟩
        · exact lastNonWs_nil
        · exact lastNonWs_tail hl (by simp)
      obtain ⟨hjoin, hfields⟩ := (ih).1 [c] htail hltail
        (by intro ch hch; rw [List.mem_singleton] at hch; subst hch; exact hc)
        (by intro h; cases h)
      rw [splitWsGo, if_neg (by rw [hc]; simp)]
      exact ⟨by rw [hjoin]; rfl, hfields⟩

theorem splitWs_spec {s : List Char} (hn : noBadWs s = true)
    (hl : lastNonWs s) (hh : headNonWs s = true) (hs : s ≠ []) :
    joinSpace (splitWs s) = s ∧
    ∀ w ∈ splitWs s, w ≠ [] ∧ ∀ ch ∈ w, isWs ch = false := by
  obtain ⟨hjoin, hfields⟩ := (splitWsGo_spec s).1 [] hn hl (by intro ch hch; cases hch)
    (fun _ => ⟨hh, hs⟩)
  exact ⟨by simpa using hjoin, hfields⟩

theorem slsAux_join (off : Nat) :
    ∀ (ws : List (List Char)) (current : List Char) (cs cur : Nat),
      (∀ w ∈ ws, w ≠ []) →
      joinSpace ((slsAux off ws current cs cur).map Chunk.text) =
        (if current.isEmpty then joinSpace ws else joinSpace (current :: ws)) := by
  intro ws
  induction ws with
  | nil =>
    intro current cs cur _
    rcases current with _ | ⟨c, t⟩
    · simp [slsAux, joinSpace]
    · simp [slsAux, joinSpace]
  | cons w ws' ih =>
    intro current cs cur hws
    have hw : w ≠ [] := hws w (by simp)
    have hwe : ¬ w.isEmpty = true := by simpa [List.isEmpty_iff] using hw
    have hws' : ∀ v ∈ ws', v ≠ [] := fun v hv => hws v (by simp [hv])
    have hwne : ¬ w.isEmpty = true := hwe
    rcases current with _ | ⟨c, t⟩
    · rw [slsAux, if_neg hwe]
      simp only [List.isEmpty_nil, if_true]
      by_cases hlen : w.length ≤ MAX_CHUNK_LENGTH
      · rw [if_pos hlen, ih _ _ _ hws', if_neg hwne]
      · rw [if_neg hlen, List.nil_append, ih _ _ _ hws', if_neg hwne]
    · rw [slsAux, if_neg hwe]
      simp only [List.isEmpty_cons, Bool.false_eq_true, if_false]
      by_cases hlen : ((c :: t) ++ ' ' :: w).length ≤ MAX_CHUNK_LENGTH
      · rw [if_pos hlen, ih _ _ _ hws',
          if_neg (by simp : ¬ ((c :: t) ++ ' ' :: w).isEmpty = true)]
        rw [joinSpace_glue,
          joinSpace_cons (by simp : (w :: ws' : List (List Char)) ≠ [])]
      · rw [if_neg hlen, List.map_append, List.map_cons, List.map_nil,
          List.singleton_append]
        have hrec := ih w (off + cur) (cur + w.length + 1) hws'
        rw [if_neg hwne] at hrec
        have hrecne : ((slsAux off ws' w (off + cur) (cur + w.length + 1)).map
            Chunk.text) ≠ [] := by
          intro h
          rw [h] at hrec
          exact joinSpace_ne_nil hw hrec.symm
        rw [joinSpace_cons hrecne, hrec,
          joinSpace_cons (by simp : (w :: ws' : List (List Char)) ≠ [])]

theorem splitLongSentence_join {s : List Char} (off : Nat)
    (hn : noBadWs s = true) (hl : lastNonWs s) (hh : headNonWs s = true)
    (hs : s ≠ []) :
    joinSpace ((splitLongSentence s off).map Chunk.text) = s ∧
    splitLongSentence s off ≠ [] := by
  obtain ⟨hjoin, hfields⟩ := splitWs_spec hn hl hh hs
  have h1 : joinSpace ((splitLongSentence s off).map Chunk.text) = s := by
    rw [splitLongSentence, slsAux_join off _ _ _ _ (fun w hw => (hfields w hw).1)]
    simpa using hjoin
  refine ⟨h1, ?_⟩
  intro h
  rw [h] at h1
  exact hs h1.symm

theorem splitWsGo_fields_nonWs :
    ∀ (l : List Char) (mode : Bool) (cur : List Char),
      (∀ ch ∈ cur, isWs ch = false) →
      ∀ w ∈ splitWsGo mode l cur, ∀ ch ∈ w, isWs ch = false := by
  intro l
  induction l with
  | nil =>
    intro mode cur hcur w hw ch hch
    cases mode <;> simp [splitWsGo] at hw <;> subst hw
    · exact hcur ch (List.mem_reverse.mp hch)
    · cases hch
  | cons c rest ih =>
    intro mode cur hcur w hw ch hch
    cases mode <;> rw [splitWsGo] at hw
    · split at hw
      · rcases List.mem_cons.mp hw with rfl | hw'
        · exact hcur ch (List.mem_reverse.mp hch)
        · exact ih true [] (by intro x hx; cases hx) w hw' ch hch
      · rename_i hcws
        exact ih false (c :: cur)
          (by
            intro x hx
            rcases List.mem_cons.mp hx with rfl | hx'
            · simpa using hcws
            · exact hcur x hx') w hw ch hch
    · split at hw
      · exact ih true [] (by intro x hx; cases hx) w hw ch hch
      · rename_i hcws
        exact ih false [c]
          (by
            intro x hx
            rw [List.mem_singleton] at hx
            subst hx
            simpa using hcws) w hw ch hch

theorem splitWsGo_sumW :
    ∀ (l cur : List Char),
      sumW (splitWsGo false l cur) ≤ cur.length + l.length + 1 ∧
      sumW (splitWsGo true l cur) ≤ l.length + 1 := by
  intro l
  induction l with
  | nil =>
    intro cur
    constructor
    · simp [splitWsGo, sumW]
    · simp [splitWsGo, sumW]
  | cons c rest ih =>
    intro cur
    constructor
    · rw [splitWsGo]
      split
      · have := (ih ([] : List Char)).2
        simp only [sumW, List.map_cons, List.sum_cons] at *
        simp only [List.length_reverse, List.length_cons]
        omega
      · have := (ih (c :: cur)).1
        simp only [List.length_cons] at *
        omega
    · rw [splitWsGo]
      split
      · have := (ih ([] : List Char)).2
        simp only [List.length_cons]
        omega
      · have := (ih [c]).1
        simp only [List.length_cons, List.length_nil] at *
        omega

theorem sumW_splitWs (s : List Char) : sumW (splitWs s) ≤ s.length + 1 := by
  have := (splitWsGo_sumW s []).1
  simpa [splitWs] using this

theorem slsAux_starts (off : Nat) :
    ∀ (ws : List (List Char)) (current : List Char) (cs cur : Nat),
      (current ≠ [] → cs + current.length + 1 = off + cur) →
      List.Chain' (· < ·) ((slsAux off ws current cs cur).map Chunk.start) ∧
      (∀ x ∈ (slsAux off ws current cs cur).map Chunk.start,
        (if current.isEmpty then off + cur else cs) ≤ x ∧
        x + 2 ≤ off + cur + sumW ws) := by
  intro ws
  induction ws with
  | nil =>
    intro current cs cur hinv
    rcases current with _ | ⟨c, t⟩
    · simp [slsAux]
    · have h := hinv (by simp)
      simp only [slsAux, List.isEmpty_cons, Bool.false_eq_true, if_false]
      refine ⟨by simp, ?_⟩
      intro x hx
      simp only [List.map_cons, List.map_nil, List.mem_singleton] at hx
      subst hx
      simp only [sumW, List.map_nil, List.sum_nil]
      constructor
      · exact le_rfl
      · simp only [List.length_cons] at h
        omega
  | cons w ws' ih =>
    intro current cs cur hinv
    have hsum : sumW (w :: ws') = w.length + 1 + sumW ws' := by
      simp only [sumW, List.map_cons, List.sum_cons]
    by_cases hwe : w.isEmpty = true
    · rw [slsAux, if_pos hwe]
      obtain ⟨hchain, hbound⟩ := ih current cs cur hinv
      refine ⟨hchain, ?_⟩
      intro x hx
      obtain ⟨h1, h2⟩ := hbound x hx
      exact ⟨h1, by omega⟩
    · have hw : w ≠ [] := by simpa [List.isEmpty_iff] using hwe
      have hwlen : 1 ≤ w.length := List.length_pos.mpr hw
      rcases current with _ | ⟨c, t⟩
      · rw [slsAux, if_neg hwe]
        simp only [List.isEmpty_nil, if_true]
        obtain ⟨hchain, hbound⟩ := ih w (off + cur) (cur + w.length + 1)
          (fun _ => by omega)
        have hbound' :
            ∀ x ∈ (slsAux off ws' w (off + cur)
                (cur + w.length + 1)).map Chunk.start,
              off + cur ≤ x ∧ x + 2 ≤ off + cur + sumW (w :: ws') := by
          intro x hx
          obtain ⟨h1, h2⟩ := hbound x hx
          rw [if_neg hwe] at h1
          exact ⟨h1, by omega⟩
        by_cases hlen : w.length ≤ MAX_CHUNK_LENGTH
        · rw [if_pos hlen]
          exact ⟨hchain, hbound'⟩
        · rw [if_neg hlen, List.nil_append]
          exact ⟨hchain, hbound'⟩
      · have hcc := hinv (by simp)
        simp only [List.length_cons] at hcc
        rw [slsAux, if_neg hwe]
        simp only [List.isEmpty_cons, Bool.false_eq_true, if_false]
        by_cases hlen : ((c :: t) ++ ' ' :: w).length ≤ MAX_CHUNK_LENGTH
        · rw [if_pos hlen]
          obtain ⟨hchain, hbound⟩ := ih ((c :: t) ++ ' ' :: w) cs
            (cur + w.length + 1)
            (fun _ => by
              simp only [List.length_append, List.length_cons]
              omega)
          refine ⟨hchain, ?_⟩
          intro x hx
          obtain ⟨h1, h2⟩ := hbound x hx
          rw [if_neg (by simp)] at h1
          exact ⟨h1, by omega⟩
        · rw [if_neg hlen]
          obtain ⟨hchain, hbound⟩ := ih w (off + cur) (cur + w.length + 1)
            (fun _ => by omega)
          have hblb :
              ∀ x ∈ (slsAux off ws' w (off + cur)
                  (cur + w.length + 1)).map Chunk.start,
                off + cur ≤ x ∧ x + 2 ≤ off + (cur + w.length + 1) + sumW ws' := by
            intro x hx
            obtain ⟨h1, h2⟩ := hbound x hx
            rw [if_neg hwe] at h1
            exact ⟨h1, h2⟩
          rw [List.singleton_append, List.map_cons]
          constructor
          · refine List.chain'_cons'.mpr ⟨?_, hchain⟩
            intro y hy
            obtain ⟨h1, -⟩ := hblb y (List.mem_of_mem_head? hy)
            have : cs < y := by omega
            exact this
          · intro x hx
            have hx2 : x = cs ∨ x ∈ (slsAux off ws' w (off + cur)
                (cur + w.length + 1)).map Chunk.start := by
              rcases List.mem_cons.mp hx with h | h
              · exact Or.inl h
              · exact Or.inr h
            rcases hx2 with rfl | hx'
            · exact ⟨le_rfl, by omega⟩
            · obtain ⟨h1, h2⟩ := hblb x hx'
              exact ⟨by omega, by omega⟩

theorem slsAux_texts (off : Nat) :
    ∀ (ws : List (List Char)) (current : List Char) (cs cur : Nat),
      (∀ w ∈ ws, ∀ ch ∈ w, isWs ch = false) →
      (current.length ≤ MAX_CHUNK_LENGTH ∨ ∀ ch ∈ current, isWs ch = false) →
      ∀ c ∈ slsAux off ws current cs cur,
        c.text.length ≤ MAX_CHUNK_LENGTH ∨ ∀ ch ∈ c.text, isWs ch = false := by
  intro ws
  induction ws with
  | nil =>
    intro current cs cur _ hcur c hc
    rw [slsAux] at hc
    split at hc
    · cases hc
    · rw [List.mem_singleton] at hc
      subst hc
      exact hcur
  | cons w ws' ih =>
    intro current cs cur hws hcur c hc
    have hw : ∀ ch ∈ w, isWs ch = false := hws w (by simp)
    have hws' : ∀ v ∈ ws', ∀ ch ∈ v, isWs ch = false :=
      fun v hv => hws v (by simp [hv])
    by_cases hwe : w.isEmpty = true
    · rw [slsAux, if_pos hwe] at hc
      exact ih current cs cur hws' hcur c hc
    · rcases current with _ | ⟨cc, t⟩
      · rw [slsAux, if_neg hwe] at hc
        simp only [List.isEmpty_nil, if_true] at hc
        by_cases hlen : w.length ≤ MAX_CHUNK_LENGTH
        · rw [if_pos hlen] at hc
          exact ih _ _ _ hws' (Or.inr hw) c hc
        · rw [if_neg hlen, List.nil_append] at hc
          exact ih _ _ _ hws' (Or.inr hw) c hc
      · rw [slsAux, if_neg hwe] at hc
        simp only [List.isEmpty_cons, Bool.false_eq_true, if_false] at hc
        by_cases hlen : ((cc :: t) ++ ' ' :: w).length ≤ MAX_CHUNK_LENGTH
        · rw [if_pos hlen] at hc
          exact ih _ _ _ hws' (Or.inl hlen) c hc
        · rw [if_neg hlen, List.singleton_append] at hc
          rcases List.mem_cons.mp hc with rfl | hc'
          · exact hcur
          · exact ih _ _ _ hws' (Or.inr hw) c hc'

theorem noBadWs_append_right :
    ∀ {x y : List Char}, noBadWs (x ++ y) = true → noBadWs y = true := by
  intro x
  induction x with
  | nil => intro y h; exact h
  | cons c t ih => intro y h; exact ih (noBadWs_tail h)

theorem goodSeps_tail {c : Char} {l : List Char}
    (h : goodSeps (c :: l) = true) : goodSeps l = true := by
  rcases l with _ | ⟨d, t⟩
  · rfl
  · rcases t with _ | ⟨e, t'⟩
    · rfl
    · exact (Bool.and_eq_true_iff.mp h).2

theorem goodSeps_append_right :
    ∀ {x y : List Char}, goodSeps (x ++ y) = true → goodSeps y = true := by
  intro x
  induction x with
  | nil => intro y h; exact h
  | cons c t ih => intro y h; exact ih (goodSeps_tail h)

theorem goodSeps_pair {c d : Char} {l : List Char}
    (h : goodSeps (c :: d :: l) = true) :
    (!isTerm c || isTerm d || isWs d) = true := by
  rcases l with _ | ⟨e, t⟩
  · exact h
  · exact (Bool.and_eq_true_iff.mp (Bool.and_eq_true_iff.mp h).1).1

theorem goodSeps_triple {c d e : Char} {l : List Char}
    (h : goodSeps (c :: d :: e :: l) = true) :
    (isTerm c && isWs d && isTerm e) = false := by
  have h2 := (Bool.and_eq_true_iff.mp (Bool.and_eq_true_iff.mp h).1).2
  cases hval : (isTerm c && isWs d && isTerm e)
  · rfl
  · rw [hval] at h2
    simp at h2

theorem takeMatch_append (l : List Char) :
    (takeMatch l).1 ++ (takeMatch l).2 = l := by
  show (l.takeWhile (fun c => !isTerm c)
      ++ (l.dropWhile (fun c => !isTerm c)).takeWhile isTerm
      ++ ((l.dropWhile (fun c => !isTerm c)).dropWhile isTerm).takeWhile isWs)
      ++ ((l.dropWhile (fun c => !isTerm c)).dropWhile isTerm).dropWhile isWs
      = l
  rw [List.append_assoc, List.append_assoc,
    List.takeWhile_append_dropWhile isWs,
    List.takeWhile_append_dropWhile isTerm,
    List.takeWhile_append_dropWhile (fun c => !isTerm c)]

theorem takeMatch_fst_ne_nil {ch : Char} {rest : List Char}
    (h : isTerm ch = false) : (takeMatch (ch :: rest)).1 ≠ [] := by
  show (((ch :: rest).takeWhile (fun c => !isTerm c)) ++ _ ++ _) ≠ []
  rw [List.takeWhile_cons_of_pos (by rw [h]; rfl)]
  simp

theorem sentenceMatchesF_nil (fuel i : Nat) :
    sentenceMatchesF fuel [] i = [] := by
  cases fuel <;> rfl

theorem sentenceMatchesF_ne_nil :
    ∀ (fuel : Nat) (l : List Char) (i : Nat), l ≠ [] →
      headNotTerm l = true → l.length ≤ fuel →
      sentenceMatchesF fuel l i ≠ [] := by
  intro fuel l i hne hht hlen
  rcases l with _ | ⟨ch, rest⟩
  · exact absurd rfl hne
  · rcases fuel with _ | f
    · simp at hlen
    · rw [sentenceMatchesF,
        if_neg (by simpa [headNotTerm] using hht)]
      simp

theorem sentenceMatchesF_indices :
    ∀ (fuel : Nat) (l : List Char) (i : Nat),
      (∀ im ∈ sentenceMatchesF fuel l i,
        i ≤ im.1 ∧ im.2 ≠ [] ∧ im.1 + im.2.length ≤ i + l.length) ∧
      List.Chain' (fun x y : Nat × List Char => x.1 + x.2.length ≤ y.1)
        (sentenceMatchesF fuel l i) := by
  intro fuel
  induction fuel with
  | zero =>
    intro l i
    exact ⟨(by intro im him; cases him), List.chain'_nil⟩
  | succ f ih =>
    intro l i
    rcases l with _ | ⟨ch, rest⟩
    · exact ⟨(by intro im him; cases him), List.chain'_nil⟩
    · rw [sentenceMatchesF]
      by_cases hch : isTerm ch = true
      · rw [if_pos hch]
        obtain ⟨hbound, hchain⟩ := ih rest (i + 1)
        refine ⟨?_, hchain⟩
        intro im him
        obtain ⟨h1, h2, h3⟩ := hbound im him
        exact ⟨by omega, h2, by simp only [List.length_cons]; omega⟩
      · rw [if_neg hch]
        simp only []
        rw [Bool.not_eq_true] at hch
        have hM := takeMatch_append (ch :: rest)
        have hMlen : (takeMatch (ch :: rest)).1.length
            + (takeMatch (ch :: rest)).2.length = (ch :: rest).length := by
          rw [← List.length_append, hM]
        have hM1 : (takeMatch (ch :: rest)).1 ≠ [] := takeMatch_fst_ne_nil hch
        obtain ⟨hbound, hchain⟩ := ih (takeMatch (ch :: rest)).2
          (i + (takeMatch (ch :: rest)).1.length)
        constructor
        · intro im him
          rcases List.mem_cons.mp him with rfl | him'
          · refine ⟨le_rfl, hM1, ?_⟩
            show i + (takeMatch (ch :: rest)).1.length ≤ i + (ch :: rest).length
            omega
          · obtain ⟨h1, h2, h3⟩ := hbound im him'
            exact ⟨by omega, h2, by omega⟩
        · refine List.chain'_cons'.mpr ⟨?_, hchain⟩
          intro y hy
          obtain ⟨h1, -, -⟩ := hbound y (List.mem_of_mem_head? hy)
          exact h1

theorem blockOf_texts (im : Nat × List Char) :
    ∀ c ∈ blockOf im,
      c.text.length ≤ MAX_CHUNK_LENGTH ∨ ∀ ch ∈ c.text, isWs ch = false := by
  intro c hc
  rw [blockOf] at hc
  split at hc
  · cases hc
  · split at hc
    · rename_i hlen
      rw [List.mem_singleton] at hc
      subst hc
      exact Or.inl hlen
    · exact slsAux_texts im.1 (splitWs (trimChars im.2)) [] im.1 0
        (fun w hw => splitWsGo_fields_nonWs _ false []
          (by intro x hx; cases hx) w hw)
        (Or.inl (by simp [MAX_CHUNK_LENGTH])) c hc

theorem blockOf_starts (j : Nat) (m : List Char) (hm : m ≠ []) :
    List.Chain' (· < ·) ((blockOf (j, m)).map Chunk.start) ∧
    ∀ x ∈ (blockOf (j, m)).map Chunk.start, j ≤ x ∧ x + 1 ≤ j + m.length := by
  have hmlen : 1 ≤ m.length := List.length_pos.mpr hm
  rw [blockOf]
  split
  · exact ⟨List.chain'_nil, by intro x hx; cases hx⟩
  · split
    · refine ⟨by simp, ?_⟩
      intro x hx
      simp only [List.map_cons, List.map_nil, List.mem_singleton] at hx
      subst hx
      exact ⟨le_rfl, by omega⟩
    · rename_i hne hlen
      obtain ⟨hchain, hbound⟩ := slsAux_starts j (splitWs (trimChars m)) [] j 0
        (fun h => absurd rfl h)
      refine ⟨hchain, ?_⟩
      intro x hx
      obtain ⟨h1, h2⟩ := hbound x hx
      simp only [List.isEmpty_nil, if_true] at h1
      have hs1 : sumW (splitWs (trimChars m)) ≤ (trimChars m).length + 1 :=
        sumW_splitWs _
      have hs2 : (trimChars m).length ≤ m.length :=
        (trimChars_sublist m).length_le
      exact ⟨by omega, by omega⟩

theorem matchBlocks_chain :
    ∀ (fuel : Nat) (l : List Char) (i : Nat),
      List.Chain' (· < ·)
        ((((sentenceMatchesF fuel l i).map blockOf).flatten).map Chunk.start) ∧
      ∀ x ∈ (((sentenceMatchesF fuel l i).map blockOf).flatten).map Chunk.start,
        i ≤ x ∧ x + 1 ≤ i + l.length := by
  intro fuel
  induction fuel with
  | zero =>
    intro l i
    exact ⟨List.chain'_nil, by intro x hx; cases hx⟩
  | succ f ih =>
    intro l i
    rcases l with _ | ⟨ch, rest⟩
    · rw [sentenceMatchesF_nil]
      exact ⟨List.chain'_nil, by intro x hx; cases hx⟩
    · rw [sentenceMatchesF]
      by_cases hch : isTerm ch = true
      · rw [if_pos hch]
        obtain ⟨hchain, hbound⟩ := ih rest (i + 1)
        refine ⟨hchain, ?_⟩
        intro x hx
        obtain ⟨h1, h2⟩ := hbound x hx
        exact ⟨by omega, by simp only [List.length_cons]; omega⟩
      · rw [if_neg hch]
        simp only [List.map_cons, List.flatten_cons]
        rw [Bool.not_eq_true] at hch
        have hM := takeMatch_append (ch :: rest)
        have hMlen : (takeMatch (ch :: rest)).1.length
            + (takeMatch (ch :: rest)).2.length = (ch :: rest).length := by
          rw [← List.length_append, hM]
        have hM1 : (takeMatch (ch :: rest)).1 ≠ [] := takeMatch_fst_ne_nil hch
        have hM1len : 1 ≤ (takeMatch (ch :: rest)).1.length :=
          List.length_pos.mpr hM1
        obtain ⟨hbchain, hbbound⟩ :=
          blockOf_starts i (takeMatch (ch :: rest)).1 hM1
        obtain ⟨hrchain, hrbound⟩ := ih (takeMatch (ch :: rest)).2
          (i + (takeMatch (ch :: rest)).1.length)
        rw [List.map_append]
        refine ⟨?_, ?_⟩
        · rw [List.chain'_append]
          refine ⟨hbchain, hrchain, ?_⟩
          intro x hx y hy
          obtain ⟨-, h2⟩ := hbbound x (getLast?_mem' hx)
          obtain ⟨h3, -⟩ := hrbound y (List.mem_of_mem_head? hy)
          omega
        · intro x hx
          rw [List.mem_append] at hx
          rcases hx with hx | hx
          · obtain ⟨h1, h2⟩ := hbbound x hx
            exact ⟨h1, by omega⟩
          · obtain ⟨h1, h2⟩ := hrbound x hx
            exact ⟨by omega, by omega⟩

/-- Layer 1 of the chunk-concatenation property: under the terminator
placement conditions (`headNotTerm`, `goodSeps`) and the normalized-text
whitespace shape (`noBadWs`, `headNonWs`), the regex scan covers the text
exactly: the trimmed matches joined by single spaces reproduce the text,
and every trimmed match is a nonempty, well-spaced sentence. -/
theorem sentenceScan_join :
    ∀ (fuel : Nat) (l : List Char) (i : Nat), l.length ≤ fuel →
      noBadWs l = true → headNotTerm l = true → goodSeps l = true →
      headNonWs l = true →
      joinSpace ((sentenceMatchesF fuel l i).map (fun im => trimChars im.2)) = l ∧
      ∀ im ∈ sentenceMatchesF fuel l i,
        trimChars im.2 ≠ [] ∧ noBadWs (trimChars im.2) = true := by
  intro fuel
  induction fuel with
  | zero =>
    intro l i hlen _ _ _ _
    have hnil : l = [] := List.length_eq_zero.mp (Nat.le_zero.mp hlen)
    subst hnil
    exact ⟨rfl, (by intro im him; cases him)⟩
  | succ f ih =>
    intro l i hlen hbad hht hgood hhead
    rcases l with _ | ⟨ch, rest⟩
    · exact ⟨rfl, (by intro im him; cases him)⟩
    · have hch : isTerm ch = false := by simpa [headNotTerm] using hht
      have hchw : isWs ch = false := by simpa [headNonWs] using hhead
      rw [sentenceMatchesF, if_neg (by rw [hch]; simp)]
      simp only []
      set A := (ch :: rest).takeWhile (fun c => !isTerm c) with hA
      set R1 := (ch :: rest).dropWhile (fun c => !isTerm c) with hR1
      set B := R1.takeWhile isTerm with hB
      set R2 := R1.dropWhile isTerm with hR2
      set C := R2.takeWhile isWs with hC
      set R3 := R2.dropWhile isWs with hR3
      have hM1 : (takeMatch (ch :: rest)).1 = A ++ B ++ C := rfl
      have hM2 : (takeMatch (ch :: rest)).2 = R3 := rfl
      rw [hM1, hM2]
      have hsplit1 : A ++ R1 = ch :: rest :=
        List.takeWhile_append_dropWhile (fun c => !isTerm c) (ch :: rest)
      have hsplit2 : B ++ R2 = R1 := List.takeWhile_append_dropWhile isTerm R1
      have hsplit3 : C ++ R3 = R2 := List.takeWhile_append_dropWhile isWs R2
      have hAcons : A = ch :: rest.takeWhile (fun c => !isTerm c) := by
        rw [hA, List.takeWhile_cons_of_pos (by rw [hch]; rfl)]
      have hAne : A ≠ [] := by rw [hAcons]; simp
      have hAhead : headNonWs A = true := by
        rw [hAcons]
        simpa [headNonWs] using hchw
      have hR1head : ∀ d t, R1 = d :: t → isTerm d = true := by
        intro d t h
        have hh := List.head?_dropWhile_not (fun c => !isTerm c) (ch :: rest)
        rw [← hR1, h] at hh
        simpa using hh
      have hR2head : ∀ d t, R2 = d :: t → isTerm d = false := by
        intro d t h
        have hh := List.head?_dropWhile_not isTerm R1
        rw [← hR2, h] at hh
        simpa using hh
      have hR3head : ∀ d t, R3 = d :: t → isWs d = false := by
        intro d t h
        have hh := List.head?_dropWhile_not isWs R2
        rw [← hR3, h] at hh
        simpa using hh
      have hBmem : ∀ x ∈ B, isTerm x = true := by
        intro x hx
        rw [hB] at hx
        exact List.mem_takeWhile_imp hx
      have hCmem : ∀ x ∈ C, isWs x = true := by
        intro x hx
        rw [hC] at hx
        exact List.mem_takeWhile_imp hx
      rcases hR3eq : R3 with _ | ⟨e, r3'⟩
      · -- the match reaches the end of the text
        have hCnil : C = [] := by
          rcases hCeq : C with _ | ⟨c0, ct⟩
          · rfl
          · exfalso
            have hcl : (c0 :: ct) = (c0 :: ct).dropLast
                ++ [(c0 :: ct).getLast (by simp)] :=
              (List.dropLast_append_getLast (by simp)).symm
            have hlw : isWs ((c0 :: ct).getLast (by simp)) = true :=
              hCmem _ (by rw [hCeq]; exact List.getLast_mem (by simp))
            have hldec : ch :: rest = (A ++ (B ++ (c0 :: ct).dropLast))
                ++ [(c0 :: ct).getLast (by simp)] := by
              rw [← hsplit1, ← hsplit2, ← hsplit3, hR3eq, List.append_nil,
                hCeq]
              nth_rewrite 1 [hcl]
              simp [List.append_assoc]
            have hlast := noBadWs_lastNonWs hbad
              ((c0 :: ct).getLast (by simp))
              (by rw [hldec, List.getLast?_concat])
            rw [hlw] at hlast
            cases hlast
        have hR2nil : R2 = [] := by
          rw [← hsplit3, hCnil, hR3eq]
          rfl
        have hlab : ch :: rest = A ++ B := by
          rw [← hsplit1, ← hsplit2, hR2nil, List.append_nil]
        have hheadAB : headNonWs (A ++ B) = true := by
          rw [← hlab]; exact hhead
        have hlastAB : lastNonWs (A ++ B) := by
          rw [← hlab]; exact noBadWs_lastNonWs hbad
        have htrim : trimChars (A ++ B ++ C) = A ++ B := by
          rw [hCnil, List.append_nil]
          exact trimChars_eq_self hheadAB hlastAB
        rw [sentenceMatchesF_nil]
        constructor
        · rw [List.map_cons, List.map_nil]
          show trimChars (A ++ B ++ C) = ch :: rest
          rw [htrim, hlab]
        · intro im him
          rcases List.mem_cons.mp him with rfl | him'
          · show trimChars (A ++ B ++ C) ≠ [] ∧
              noBadWs (trimChars (A ++ B ++ C)) = true
            rw [htrim, ← hlab]
            exact ⟨by simp, hbad⟩
          · cases him'
      · -- a later sentence follows: the match ends in exactly one space
        rw [← hR3eq]
        have hews : isWs e = false := hR3head e r3' hR3eq
        have hBne : B ≠ [] := by
          intro hBnil
          have hR1eq : R1 = C ++ R3 := by
            rw [← hsplit2, hBnil, List.nil_append, ← hsplit3]
          rcases hCeq : C with _ | ⟨c0, ct⟩
          · have h1 := hR1head e r3'
              (by rw [hR1eq, hCeq, List.nil_append, hR3eq])
            have h2 := hR2head e r3'
              (by rw [← hsplit3, hCeq, List.nil_append, hR3eq])
            rw [h1] at h2
            cases h2
          · have h1 := hR1head c0 (ct ++ R3) (by rw [hR1eq, hCeq]; rfl)
            have h2 : isWs c0 = true := hCmem c0 (by rw [hCeq]; simp)
            have h3 := isTerm_not_isWs h1
            rw [h3] at h2
            cases h2
        obtain ⟨bl, B', hBeq, hblterm⟩ :
            ∃ bl B', B = B' ++ [bl] ∧ isTerm bl = true :=
          ⟨B.getLast hBne, B.dropLast, (List.dropLast_append_getLast hBne).symm,
            hBmem _ (List.getLast_mem hBne)⟩
        have hCne : C ≠ [] := by
          intro hCnil
          have heterm0 : isTerm e = false := hR2head e r3'
            (by rw [← hsplit3, hCnil, List.nil_append, hR3eq])
          have hldecomp : ch :: rest = (A ++ B') ++ (bl :: e :: r3') := by
            rw [← hsplit1, ← hsplit2, ← hsplit3, hCnil, List.nil_append,
              hR3eq, hBeq]
            simp [List.append_assoc]
          have hgs : goodSeps (bl :: e :: r3') = true := by
            rw [hldecomp] at hgood
            exact goodSeps_append_right hgood
          have hp := goodSeps_pair hgs
          rw [hblterm, heterm0, hews] at hp
          cases hp
        obtain ⟨c0, ct, hCeq⟩ : ∃ c0 ct, C = c0 :: ct := by
          rcases C with _ | ⟨c0, ct⟩
          · exact absurd rfl hCne
          · exact ⟨c0, ct, rfl⟩
        have hc0ws : isWs c0 = true := hCmem c0 (by rw [hCeq]; simp)
        have hldec : ch :: rest = (A ++ B) ++ (c0 :: (ct ++ R3)) := by
          rw [← hsplit1, ← hsplit2, ← hsplit3, hCeq]
          simp [List.append_assoc]
        have hnb2 : noBadWs (c0 :: (ct ++ R3)) = true := by
          rw [hldec] at hbad
          exact noBadWs_append_right hbad
        have hCsp : C = [' '] := by
          rcases hcteq : ct with _ | ⟨c1, ct'⟩
          · have hpair : c0 = ' ' ∧ isWs e = false := by
              rw [hcteq, List.nil_append, hR3eq] at hnb2
              exact ⟨(noBadWs_pair hnb2 hc0ws).1, hews⟩
            rw [hCeq, hcteq, hpair.1]
          · exfalso
            have hc1ws : isWs c1 = true :=
              hCmem c1 (by rw [hCeq, hcteq]; simp)
            rw [hcteq, List.cons_append] at hnb2
            have := (noBadWs_pair hnb2 hc0ws).2
            rw [hc1ws] at this
            cases this
        have heterm : isTerm e = false := by
          have hldecomp : ch :: rest = (A ++ B') ++ (bl :: ' ' :: e :: r3') := by
            rw [← hsplit1, ← hsplit2, ← hsplit3, hCsp, hR3eq, hBeq]
            simp [List.append_assoc]
          have hgs : goodSeps (bl :: ' ' :: e :: r3') = true := by
            rw [hldecomp] at hgood
            exact goodSeps_append_right hgood
          have ht := goodSeps_triple hgs
          rw [hblterm] at ht
          simpa [isWs] using ht
        have hABlast : lastNonWs (A ++ B) := by
          intro x hx
          rw [hBeq] at hx
          have hassoc : A ++ (B' ++ [bl]) = (A ++ B') ++ [bl] := by
            simp [List.append_assoc]
          rw [hassoc, List.getLast?_concat] at hx
          cases hx
          exact isTerm_not_isWs hblterm
        have hABhead : headNonWs (A ++ B) = true := headNonWs_append hAhead hAne
        have hABne : A ++ B ≠ [] := by
          intro h
          exact hAne (List.append_eq_nil.mp h).1
        have htrim : trimChars (A ++ B ++ C) = A ++ B := by
          rw [hCsp]
          exact trimChars_append_space hABhead hABlast hABne
        have hABbad : noBadWs (A ++ B) = true := by
          have hldec2 : ch :: rest = (A ++ B) ++ (C ++ R3) := by
            rw [← hsplit1, ← hsplit2, ← hsplit3]
            simp [List.append_assoc]
          rw [hldec2] at hbad
          exact noBadWs_append_left hbad hABlast
        have hlenR3 : R3.length ≤ f := by
          have hlth : (ch :: rest).length
              = A.length + (B.length + (C.length + R3.length)) := by
            conv_lhs => rw [← hsplit1, ← hsplit2, ← hsplit3]
            simp [List.length_append]
          have hA1 : 1 ≤ A.length := List.length_pos.mpr hAne
          simp only [List.length_cons] at hlth hlen
          omega
        have hbadR3 : noBadWs R3 = true := by
          rw [hR3, hR2, hR1]
          exact noBadWs_dropWhile (noBadWs_dropWhile (noBadWs_dropWhile hbad))
        have hhtR3 : headNotTerm R3 = true := by
          rw [hR3eq]
          simpa [headNotTerm] using heterm
        have hgoodR3 : goodSeps R3 = true := by
          have hldec2 : ch :: rest = (A ++ B ++ C) ++ R3 := by
            rw [← hsplit1, ← hsplit2, ← hsplit3]
            simp [List.append_assoc]
          rw [hldec2] at hgood
          exact goodSeps_append_right hgood
        have hheadR3 : headNonWs R3 = true := by
          rw [hR3eq]
          simpa [headNonWs] using hews
        obtain ⟨hjoin2, hprops2⟩ := ih R3 (i + (A ++ B ++ C).length) hlenR3
          hbadR3 hhtR3 hgoodR3 hheadR3
        have hmne : sentenceMatchesF f R3 (i + (A ++ B ++ C).length) ≠ [] :=
          sentenceMatchesF_ne_nil f R3 _ (by rw [hR3eq]; simp) hhtR3 hlenR3
        constructor
        · rw [List.map_cons]
          have hmapne : (sentenceMatchesF f R3
              (i + (A ++ B ++ C).length)).map (fun im => trimChars im.2)
              ≠ [] := by
            intro h
            exact hmne (List.map_eq_nil_iff.mp h)
          rw [joinSpace_cons hmapne]
          show trimChars (A ++ B ++ C) ++ ' ' :: joinSpace _ = ch :: rest
          rw [htrim, hjoin2, ← hsplit1, ← hsplit2, ← hsplit3, hCsp]
          simp [List.append_assoc]
        · intro im him
          rcases List.mem_cons.mp him with rfl | him'
          · show trimChars (A ++ B ++ C) ≠ [] ∧
              noBadWs (trimChars (A ++ B ++ C)) = true
            rw [htrim]
            exact ⟨hABne, hABbad⟩
          · exact hprops2 im him'

/-- Layer 2 of the chunk-concatenation property: a well-spaced, nonempty
sentence is reproduced exactly by joining its block's chunk texts with
single spaces, whether it is emitted whole or word-split. -/
theorem blockOf_join {im : Nat × List Char} (hne : trimChars im.2 ≠ [])
    (hbad : noBadWs (trimChars im.2) = true) :
    joinSpace ((blockOf im).map Chunk.text) = trimChars im.2 ∧
    blockOf im ≠ [] := by
  rw [blockOf]
  rw [if_neg (by simpa [List.isEmpty_iff] using hne)]
  split
  · exact ⟨rfl, by simp⟩
  · exact splitLongSentence_join im.1 hbad (trimChars_lastNonWs _)
      (trimChars_headNonWs _) hne

/-- Assembling the two layers: if every match trims to a nonempty,
well-spaced sentence, joining all chunk texts equals joining the trimmed
sentences. -/
theorem blocks_join :
    ∀ ms : List (Nat × List Char),
      (∀ im ∈ ms, trimChars im.2 ≠ [] ∧ noBadWs (trimChars im.2) = true) →
      joinSpace (((ms.map blockOf).flatten).map Chunk.text) =
        joinSpace (ms.map (fun im => trimChars im.2)) ∧
      (ms ≠ [] → (ms.map blockOf).flatten ≠ []) := by
  intro ms
  induction ms with
  | nil => exact fun _ => ⟨rfl, fun h => absurd rfl h⟩
  | cons im ms' ih =>
    intro hprops
    obtain ⟨hne, hbad⟩ := hprops im (by simp)
    have hprops' : ∀ x ∈ ms', trimChars x.2 ≠ [] ∧
        noBadWs (trimChars x.2) = true :=
      fun x hx => hprops x (by simp [hx])
    obtain ⟨hbj, hbne⟩ := blockOf_join hne hbad
    obtain ⟨hij, hine⟩ := ih hprops'
    rw [List.map_cons, List.flatten_cons, List.map_append, List.map_cons]
    rcases hms' : ms' with _ | ⟨im2, ms''⟩
    · simp only [List.map_nil, List.flatten_nil, List.append_nil]
      refine ⟨?_, fun _ h => hbne h⟩
      rw [hbj]
      rfl
    · rw [← hms']
      have hmsne : ms' ≠ [] := by rw [hms']; simp
      have hfne : (ms'.map blockOf).flatten ≠ [] := hine hmsne
      have hbtne : (blockOf im).map Chunk.text ≠ [] := by
        intro h
        exact hbne (List.map_eq_nil_iff.mp h)
      have hftne : ((ms'.map blockOf).flatten).map Chunk.text ≠ [] := by
        intro h
        exact hfne (List.map_eq_nil_iff.mp h)
      constructor
      · rw [joinSpace_append hbtne hftne, hbj, hij,
          joinSpace_cons (by
            intro h
            exact hmsne (List.map_eq_nil_iff.mp h))]
      · intro _
        intro h
        rcases List.append_eq_nil.mp h with ⟨h1, -⟩
        exact hbne h1

/-- **C1, amended.** For every input text whose whitespace-normalization
neither begins with a sentence terminator (`.`, `!`, `?`) nor contains a
terminator that the sentence regex would skip (a terminator directly
followed by a non-terminator must be followed by whitespace, and the
character after such a terminator-plus-space must not itself be a
terminator), concatenating the texts of the chunks returned by `chunkText`,
joined by single spaces, equals exactly the whitespace-normalized input. -/
theorem claim1_amended (text : List Char)
    (h1 : headNotTerm (normalizeWs text) = true)
    (h2 : goodSeps (normalizeWs text) = true) :
    joinSpace ((chunkText text).map Chunk.text) = normalizeWs text := by
  rw [chunkText]
  by_cases hn : (normalizeWs text).isEmpty = true
  · rw [if_pos hn]
    rw [List.isEmpty_iff] at hn
    rw [hn]
    rfl
  · rw [if_neg hn]
    simp only []
    rw [List.isEmpty_iff] at hn
    have hbad := normalizeWs_noBadWs text
    have hhead := normalizeWs_headNonWs text
    obtain ⟨hjoin, hprops⟩ := sentenceScan_join (normalizeWs text).length
      (normalizeWs text) 0 le_rfl hbad h1 h2 hhead
    obtain ⟨hbj, hbne⟩ := blocks_join (sentenceMatches (normalizeWs text))
      (fun im him => hprops im him)
    have hmne : sentenceMatches (normalizeWs text) ≠ [] := by
      rw [sentenceMatches]
      exact sentenceMatchesF_ne_nil _ _ _ hn h1 le_rfl
    have hjoin2 : joinSpace ((sentenceMatches (normalizeWs text)).map
        (fun im => trimChars im.2)) = normalizeWs text := by
      rw [sentenceMatches]
      exact hjoin
    rw [if_neg (by simpa [List.isEmpty_iff] using hbne hmne)]
    rw [hbj, hjoin2]

/-- **C1, witness.** A messy input with runs of whitespace normalizes to
`"Hello world! How are you?"` and the chunk texts join back to exactly
that. -/
theorem claim1_witness :
    joinSpace ((chunkText "  Hello   world!  How are  you? ".toList).map
      Chunk.text) = normalizeWs "  Hello   world!  How are  you? ".toList :=
  claim1_amended "  Hello   world!  How are  you? ".toList
    (by decide) (by decide)

/-- `jsIndexOfFrom` only moves the reported position forward and reports a
genuine, first occurrence (relative to the scan start). -/
theorem jsIndexOfFrom_spec :
    ∀ (l pat : List Char) (i j : Nat), jsIndexOfFrom l pat i = some j →
      i ≤ j ∧ List.isPrefixOf pat (l.drop (j - i)) ∧
        ∀ k, i ≤ k → k < j → ¬ List.isPrefixOf pat (l.drop (k - i)) := by
  intro l
  induction l with
  | nil =>
    intro pat i j h
    simp only [jsIndexOfFrom] at h
    split at h
    · rename_i hp
      cases h
      refine ⟨le_rfl, ?_, ?_⟩
      · simpa [List.isPrefixOf_iff_prefix, List.isEmpty_iff] using hp
      · omega
    · exact absurd h (by simp)
  | cons c rest ih =>
    intro pat i j h
    simp only [jsIndexOfFrom] at h
    split at h
    · rename_i hp
      cases h
      exact ⟨le_rfl, by simpa using hp, by omega⟩
    · rename_i hp
      obtain ⟨hij, hpre, hmin⟩ := ih pat (i + 1) j h
      refine ⟨by omega, ?_, ?_⟩
      · have : j - i = (j - (i + 1)) + 1 := by omega
        simpa [this] using hpre
      · intro k hk hkj hkpre
        rcases Nat.eq_or_lt_of_le hk with hk' | hk'
        · subst hk'
          simp only [Nat.sub_self, List.drop_zero] at hkpre
          exact hp hkpre
        · have h1 : i + 1 ≤ k := hk'
          have : k - i = (k - (i + 1)) + 1 := by omega
          rw [this] at hkpre
          exact hmin k h1 hkj (by simpa using hkpre)

/-- `jsIndexOf` returns the first position at which the pattern occurs. -/
theorem jsIndexOf_first (l pat : List Char) (j : Nat)
    (h : jsIndexOf l pat = some j) :
    List.isPrefixOf pat (l.drop j) ∧
      ∀ k < j, ¬ List.isPrefixOf pat (l.drop k) := by
  obtain ⟨-, hpre, hmin⟩ := jsIndexOfFrom_spec l pat 0 j h
  exact ⟨by simpa using hpre, fun k hk => by simpa using hmin k (Nat.zero_le k) hk⟩

/-- Every absolute index produced by a run of `emitProgress` events is at
least the stored index the run started from. -/
theorem runEmits_le :
    ∀ (evs : List (Chunk × Int)) (last x : Nat),
      x ∈ runEmits last evs → last ≤ x := by
  intro evs
  induction evs with
  | nil => intro last x hx; simp [runEmits] at hx
  | cons e evs ih =>
    intro last x hx
    obtain ⟨c, rel⟩ := e
    simp only [runEmits] at hx
    rcases hemit : emitProgress c last rel with _ | a
    · rw [hemit] at hx
      exact ih last x hx
    · rw [hemit] at hx
      have ha : last ≤ a := by
        simp only [emitProgress] at hemit
        split at hemit
        · cases hemit
        · rename_i hcond
          cases hemit
          omega
      rcases List.mem_cons.mp hx with rfl | hx'
      · exact ha
      · exact le_trans ha (ih a x hx')

/-! ## Claim theorems -/

/-- **C1, counterexample.** On the input `"a.b"` (already normalized), the
chunker produces the chunks `"a."` and `"b"`, whose texts joined by a
single space give `"a. b"`, which differs from the normalized input
`"a.b"`: the regex `[^.!?]+[.!?]*\s*` consumed no whitespace between the
two sentences, yet the join inserts a space. -/
theorem claim1_counterexample :
    joinSpace ((chunkText "a.b".toList).map Chunk.text) = "a. b".toList ∧
    normalizeWs "a.b".toList = "a.b".toList ∧
    "a. b".toList ≠ "a.b".toList := by
  refine ⟨by decide, by decide, by decide⟩

/-- **C2, counterexample.** A single word of 221 characters has no sentence
terminator and no word boundary, so `splitLongSentence` emits it whole: the
unique chunk has text length 221 > `MAX_CHUNK_LENGTH` = 220. -/
theorem claim2_counterexample :
    (chunkText (List.replicate 221 'a')).map (fun c => c.text.length) = [221] ∧
    ¬ (221 ≤ MAX_CHUNK_LENGTH) := by
  refine ⟨by decide, by decide⟩

/-- **C2, amended.** For every input text, the chunk start offsets are
strictly increasing across the returned sequence, and every chunk either
satisfies `text.length ≤ MAX_CHUNK_LENGTH` (220) or is a single word
(contains no whitespace at all) — an over-long single word is emitted
whole by `splitLongSentence`, which only packs at word boundaries. -/
theorem claim2_amended (text : List Char) :
    List.Chain' (· < ·) ((chunkText text).map Chunk.start) ∧
    ∀ c ∈ chunkText text,
      c.text.length ≤ MAX_CHUNK_LENGTH ∨ ∀ ch ∈ c.text, isWs ch = false := by
  rw [chunkText]
  by_cases h1 : (normalizeWs text).isEmpty = true
  · rw [if_pos h1]
    exact ⟨List.chain'_nil, by intro c hc; cases hc⟩
  · rw [if_neg h1]
    simp only []
    by_cases h2 : (((sentenceMatches (normalizeWs text)).map
        blockOf).flatten).isEmpty = true
    · rw [if_pos h2]
      constructor
      · obtain ⟨hchain, -⟩ := slsAux_starts 0 (splitWs (normalizeWs text)) [] 0 0
          (fun h => absurd rfl h)
        exact hchain
      · intro c hc
        exact slsAux_texts 0 (splitWs (normalizeWs text)) [] 0 0
          (fun w hw => splitWsGo_fields_nonWs _ false []
            (by intro x hx; cases hx) w hw)
          (Or.inl (by simp [MAX_CHUNK_LENGTH])) c hc
    · rw [if_neg h2]
      constructor
      · exact (matchBlocks_chain (normalizeWs text).length (normalizeWs text) 0).1
      · intro c hc
        rw [List.mem_flatten] at hc
        obtain ⟨block, hblock, hcblock⟩ := hc
        rw [List.mem_map] at hblock
        obtain ⟨im, -, rfl⟩ := hblock
        exact blockOf_texts im c hcblock

/-- **C2, witness.** On a concrete three-sentence text the chunk starts
strictly increase. -/
theorem claim2_witness :
    List.Chain' (· < ·)
      ((chunkText "One. Two. Three.".toList).map Chunk.start) :=
  (claim2_amended "One. Two. Three.".toList).1

/-- **C3.** `emitProgress` clamps the relative offset into
`[0, text.length - 1]`, adds the chunk's `start`, and reports the result via
`onBoundary` exactly when it is at least the last stored absolute index
(otherwise dropping it silently); consequently, over any sequence of
emissions of one session, the reported absolute indices are non-decreasing
in emission order. -/
theorem claim3_progress_monotone :
    (∀ (c : Chunk) (last : Nat) (rel : Int),
      emitProgress c last rel =
        if c.start + clampRel rel c.text.length < last then none
        else some (c.start + clampRel rel c.text.length)) ∧
    (∀ (last : Nat) (evs : List (Chunk × Int)),
      List.Chain' (· ≤ ·) (runEmits last evs)) := by
  constructor
  · intro c last rel
    rfl
  · intro last evs
    induction evs generalizing last with
    | nil => simp [runEmits]
    | cons e evs ih =>
      obtain ⟨c, rel⟩ := e
      simp only [runEmits]
      rcases hemit : emitProgress c last rel with _ | a
      · exact ih last
      · refine List.chain'_cons'.mpr ⟨?_, ih a⟩
        intro y hy
        exact runEmits_le evs a y (List.mem_of_mem_head? hy)

/-- **C4.** The code has no session-identity guard: after `speak(1, …)` is
superseded by `speak(2, …)`, the backend's late `end` event for session 1's
cancelled utterance still runs session 1's handlers.  Concretely, on the
trace `staleTraceAfterStaleEnd` the stale handler (a) invokes the old
session's `onBoundary` (with index 10 taken from the old chunk), (b)
overwrites the shared progress index with 10, and (c) dequeues the current
session's chunk `"Two."` and submits it bound to session 1's options —
contradicting the claimed unconditional suppression. -/
theorem claim4_stale_callback_runs :
    (1, (⟨"Alpha beta.".toList, 0⟩ : Chunk)) ∈ staleTraceSuperseded.cancelled ∧
    staleTraceSuperseded.boundaryCalls = [] ∧
    staleTraceSuperseded.lastChar = 0 ∧
    staleTraceSuperseded.queue =
      [⟨"Two.".toList, 5⟩, ⟨"Three.".toList, 10⟩] ∧
    staleTraceAfterStaleEnd.boundaryCalls = [(1, 10)] ∧
    staleTraceAfterStaleEnd.lastChar = 10 ∧
    staleTraceAfterStaleEnd.submitted =
      staleTraceSuperseded.submitted ++ [(1, ⟨"Two.".toList, 5⟩)] ∧
    staleTraceAfterStaleEnd.queue = [⟨"Three.".toList, 10⟩] := by
  refine ⟨by decide, by decide, by decide, by decide, by decide, by decide,
    by decide, by decide⟩

/-- **C5.** When the trimmed anchor window around `oldIndex` has at least 8
non-space characters and occurs in `newText`, `remapIndexAfterEdit` returns
the first occurrence position plus `oldIndex - anchorWindowStart`, clamped
to `[0, newText.length - 1]`. -/
theorem claim5_anchor_precision (oldText newText : List Char) (oldIndex : Int)
    (pos : Nat)
    (hne : oldText ≠ newText)
    (hcount : 8 ≤ ((anchorOf oldText oldIndex).filter (fun c => c ≠ ' ')).length)
    (hfind : jsIndexOf newText (anchorOf oldText oldIndex) = some pos) :
    remapIndexAfterEdit oldText newText oldIndex =
      jsClamp ((pos : Int) + (oldIndex - anchorWindowStart oldText oldIndex)) 0
        ((newText.length : Int) - 1) := by
  have hlen : 8 ≤ (anchorOf oldText oldIndex).length :=
    le_trans hcount (List.length_filter_le _ _)
  have hanc : anchorOf oldText oldIndex ≠ [] := by
    intro h
    rw [h] at hlen
    simp at hlen
  have hold : oldText ≠ [] := by
    rintro rfl
    exact hanc (by simp [anchorOf, trimChars])
  have hnew : newText ≠ [] := by
    rintro rfl
    rw [jsIndexOf, jsIndexOfFrom, if_neg (by simpa [List.isEmpty_iff] using hanc)]
      at hfind
    cases hfind
  have hEmpty : (oldText.isEmpty || newText.isEmpty) = false := by
    simp [List.isEmpty_iff, hold, hnew]
  have hone : (1 : Int) ≤ (newText.length : Int) := by
    exact_mod_cast List.length_pos.mpr hnew
  have hmax : max 0 ((newText.length : Int) - 1) = (newText.length : Int) - 1 := by
    omega
  simp only [remapIndexAfterEdit, hEmpty, Bool.false_eq_true, if_false,
    if_neg hne, if_pos hlen, hfind, hmax]

/-- **C5, witness.** `oldText = "abcdefghijkl"`, `oldIndex = 5`,
`newText = "XXabcdefghijkl"`: the anchor is the whole old text, found at
position 2, so the remapped index is `2 + (5 - 0) = 7`. -/
theorem claim5_witness :
    remapIndexAfterEdit "abcdefghijkl".toList "XXabcdefghijkl".toList 5 = 7 := by
  have h := claim5_anchor_precision "abcdefghijkl".toList "XXabcdefghijkl".toList
    5 2 (by decide) (by decide) (by decide)
  exact h.trans (by decide)

/-- **C6, counterexample.** `oldText = "ab cd ef"`, `oldIndex = 0`,
`newText = "ab cd ef yyyy"`: the anchor `"ab cd ef"` has only 6 non-space
characters (< 8), so the claim demands the delta fallback
`clamp(0 + (13 - 8)) = 5`; but the code tests the anchor's **total** length
(8 ≥ 8), finds the anchor at position 0 and returns 0. -/
theorem claim6_counterexample :
    ((anchorOf "ab cd ef".toList 0).filter (fun c => c ≠ ' ')).length < 8 ∧
    remapIndexAfterEdit "ab cd ef".toList "ab cd ef yyyy".toList 0 = 0 ∧
    jsClamp (0 + ((13 : Int) - 8)) 0 (13 - 1) = 5 ∧
    (0 : Int) ≠ 5 := by
  refine ⟨by decide, by decide, by decide, by decide⟩

/-- **C6, amended.** For nonempty `oldText ≠ newText` and any integer
`oldIndex`: whenever the trimmed anchor has **total length** < 8 (the code
tests `anchor.length`, not the count of non-space characters) or does not
occur in `newText`, the result is `oldIndex + (newText.length -
oldText.length)` clamped to `[0, newText.length - 1]`. -/
theorem claim6_delta_fallback (oldText newText : List Char) (oldIndex : Int)
    (hold : oldText ≠ []) (hnew : newText ≠ []) (hne : oldText ≠ newText)
    (hfb : (anchorOf oldText oldIndex).length < 8 ∨
      jsIndexOf newText (anchorOf oldText oldIndex) = none) :
    remapIndexAfterEdit oldText newText oldIndex =
      jsClamp (oldIndex + ((newText.length : Int) - (oldText.length : Int)))
        0 ((newText.length : Int) - 1) := by
  have hEmpty : (oldText.isEmpty || newText.isEmpty) = false := by
    simp [List.isEmpty_iff, hold, hnew]
  have hone : (1 : Int) ≤ (newText.length : Int) := by
    exact_mod_cast List.length_pos.mpr hnew
  have hmax : max 0 ((newText.length : Int) - 1) = (newText.length : Int) - 1 := by
    omega
  rcases hfb with hshort | hmiss
  · simp only [remapIndexAfterEdit, hEmpty, Bool.false_eq_true, if_false,
      if_neg hne, if_neg (not_le.mpr hshort), hmax]
  · by_cases hlen : 8 ≤ (anchorOf oldText oldIndex).length
    · simp only [remapIndexAfterEdit, hEmpty, Bool.false_eq_true, if_false,
        if_neg hne, if_pos hlen, hmiss, hmax]
    · simp only [remapIndexAfterEdit, hEmpty, Bool.false_eq_true, if_false,
        if_neg hne, if_neg hlen, hmax]

/-- **C6, witness.** `oldText = "ab"`, `newText = "xyz ab"`, `oldIndex = 0`:
the anchor `"ab"` is shorter than 8, so the delta fallback gives
`clamp(0 + (6 - 2)) = 4`. -/
theorem claim6_witness :
    remapIndexAfterEdit "ab".toList "xyz ab".toList 0 = 4 := by
  have h := claim6_delta_fallback "ab".toList "xyz ab".toList 0
    (by decide) (by decide) (by decide) (Or.inl (by decide))
  exact h.trans (by decide)

/-- **C7, counterexample.** On
`"Bonjour. Comment vas tu aujourd'hui? Tres bien merci."` the three chunks
start at 0, 9 and 37 — not 38: `"Comment vas tu aujourd'hui?"` spans
indices 9–35, its following space is index 36, and `"Tres bien merci."`
starts at 37. -/
theorem claim7_counterexample :
    (chunkText "Bonjour. Comment vas tu aujourd'hui? Tres bien merci.".toList).map
      Chunk.start = [0, 9, 37] ∧
    ([0, 9, 37] : List Nat) ≠ [0, 9, 38] := by
  refine ⟨by decide, by decide⟩

/-- **C7, amended.** The input
`"Bonjour. Comment vas tu aujourd'hui? Tres bien merci."` yields exactly 3
chunks, whose start offsets are 0, 9 and 37. -/
theorem claim7_three_chunks :
    (chunkText "Bonjour. Comment vas tu aujourd'hui? Tres bien merci.".toList).length
      = 3 ∧
    (chunkText "Bonjour. Comment vas tu aujourd'hui? Tres bien merci.".toList).map
      Chunk.start = [0, 9, 37] := by
  refine ⟨by decide, by decide⟩

/-- `emitProgressE` touches only `lastChar` and `boundaryCalls`. -/
theorem emitProgressE_components (sid : Nat) (c : Chunk) (rel : Int)
    (st : EngineState) :
    (emitProgressE sid c rel st).queue = st.queue ∧
    (emitProgressE sid c rel st).submitted = st.submitted ∧
    (emitProgressE sid c rel st).endCalls = st.endCalls := by
  simp only [emitProgressE]
  rcases emitProgress c st.lastChar rel with _ | a <;> simp

/-- Driving a session from an active chunk through one backend event per
chunk (each outcome arbitrary: natural end or error) dequeues and submits
every remaining chunk in order and fires the session's `onEnd` once. -/
theorem runFrom_drains (sid : Nat) :
    ∀ (q : List Chunk) (c : Chunk) (flags : List Bool) (st : EngineState),
      st.queue = q → flags.length = q.length + 1 →
      (runFrom sid (some c) flags st).submitted =
        st.submitted ++ q.map (fun ch => (sid, ch)) ∧
      (runFrom sid (some c) flags st).endCalls = st.endCalls ++ [sid] := by
  intro q
  induction q with
  | nil =>
    intro c flags st hq hlen
    match flags, hlen with
    | [f], _ =>
      cases f <;>
        simp [runFrom, handleEnd, handleError, playQueue,
          (emitProgressE_components sid c _ st).1, hq,
          (emitProgressE_components sid c _ st).2.1,
          (emitProgressE_components sid c _ st).2.2]
  | cons ch rest ih =>
    intro c flags st hq hlen
    match flags, hlen with
    | f :: fs, hlen =>
      have hfs : fs.length = rest.length + 1 := by
        simpa [hq] using hlen
      have hstep :
          ∃ st', (if f then handleEnd sid c st else handleError sid c st) = st' ∧
            st'.queue = rest ∧
            st'.submitted = st.submitted ++ [(sid, ch)] ∧
            st'.endCalls = st.endCalls := by
        cases f
        · refine ⟨_, rfl, ?_, ?_, ?_⟩ <;> simp [handleError, playQueue, hq]
        · obtain ⟨h1, h2, h3⟩ :=
            emitProgressE_components sid c ((c.text.length : Int) - 1) st
          refine ⟨_, rfl, ?_, ?_, ?_⟩ <;>
            simp [handleEnd, playQueue, h1, h2, h3, hq]
      obtain ⟨st', hst', hq', hsub', hend'⟩ := hstep
      have hhead : st.queue.head? = some ch := by rw [hq]; rfl
      have := ih ch fs st' hq' hfs
      simp only [runFrom, hst', hhead]
      rw [this.1, this.2, hsub', hend']
      simp

/-- **C8.** A backend error on the current chunk is handled exactly like
natural completion as far as sequencing goes: `onerror` runs the same
`playQueue` advance as `onend` (same queue, same submissions, same `onEnd`
calls), and a session in which every chunk ends **or errors** arbitrarily
still dequeues and submits all remaining chunks in order and fires `onEnd`
once — no error aborts the session and no failure is surfaced. -/
theorem claim8_error_advances :
    (∀ (sid : Nat) (c : Chunk) (st : EngineState),
      handleError sid c st = playQueue sid st ∧
      (handleError sid c st).queue = (handleEnd sid c st).queue ∧
      (handleError sid c st).submitted = (handleEnd sid c st).submitted ∧
      (handleError sid c st).endCalls = (handleEnd sid c st).endCalls) ∧
    (∀ (sid : Nat) (c : Chunk) (flags : List Bool) (st : EngineState),
      flags.length = st.queue.length + 1 →
      (runFrom sid (some c) flags st).submitted =
        st.submitted ++ st.queue.map (fun ch => (sid, ch)) ∧
      (runFrom sid (some c) flags st).endCalls = st.endCalls ++ [sid]) := by
  constructor
  · intro sid c st
    obtain ⟨h1, h2, h3⟩ :=
      emitProgressE_components sid c ((c.text.length : Int) - 1) st
    refine ⟨rfl, ?_, ?_, ?_⟩ <;>
      · simp only [handleError, handleEnd, playQueue, h1, h2, h3]
        cases st.queue <;> simp
  · intro sid c flags st hlen
    exact runFrom_drains sid st.queue c flags st rfl hlen

/-- **C8, witness.** A two-chunk session in which the first chunk errors
and the second ends naturally: both chunks get submitted and `onEnd` fires
once. -/
theorem claim8_witness :
    (runFrom 7 (some ⟨"a.".toList, 0⟩) [false, true]
        { initEngine with queue := [⟨"b.".toList, 3⟩] }).submitted =
      [(7, ⟨"b.".toList, 3⟩)] ∧
    (runFrom 7 (some ⟨"a.".toList, 0⟩) [false, true]
        { initEngine with queue := [⟨"b.".toList, 3⟩] }).endCalls = [7] := by
  have h := claim8_error_advances.2 7 ⟨"a.".toList, 0⟩ [false, true]
    { initEngine with queue := [⟨"b.".toList, 3⟩] } (by decide)
  exact ⟨h.1.trans (by decide), h.2.trans (by decide)⟩

/-- **C9.** On unchanged text, `remapIndexAfterEdit` is the identity up to
clamping into the valid index range (`0` for empty text, where the clamp
bound degenerates to `[0, 0]`). -/
theorem claim9_identity (text : List Char) (i : Int) :
    remapIndexAfterEdit text text i =
      jsClamp i 0 (max 0 ((text.length : Int) - 1)) := by
  rcases text with _ | ⟨c, rest⟩
  · simp only [remapIndexAfterEdit, List.isEmpty_nil, Bool.true_or, if_true,
      jsClamp, List.length_nil]
    omega
  · simp [remapIndexAfterEdit]

/-- **C10.** `saveHistoryEntry` on non-blank text: the stored list stays at
most `MAX_ENTRIES = 12` long; if the previous store had pairwise-distinct
ids, so does the new one (an entry with the same id is replaced via the
filter, never duplicated); and the newly saved head entry holds the text
truncated to `MAX_TEXT_LENGTH = 180000` characters with its `currentIndex`
clamped into `[0, savedText.length - 1]`. -/
theorem claim10_history_invariants (readerType : ReaderType)
    (documentName text : List Char) (currentIndex : Int)
    (stored : List ReadingHistoryEntry)
    (hblank : trimChars text ≠ [])
    (hdist : (stored.map (fun e => e.id)).Pairwise (· ≠ ·)) :
    (saveHistoryEntry readerType documentName text currentIndex stored).length
        ≤ MAX_ENTRIES ∧
    ((saveHistoryEntry readerType documentName text currentIndex stored).map
        (fun e => e.id)).Pairwise (· ≠ ·) ∧
    ∃ e, (saveHistoryEntry readerType documentName text currentIndex
        stored).head? = some e ∧
      e.text = text.take MAX_TEXT_LENGTH ∧
      e.text.length ≤ MAX_TEXT_LENGTH ∧
      0 ≤ e.currentIndex ∧ e.currentIndex ≤ (e.text.length : Int) - 1 := by
  have hguard : (trimChars text).isEmpty = false := by
    simpa [List.isEmpty_iff] using hblank
  have htext : text ≠ [] := by
    rintro rfl
    exact hblank (by simp [trimChars])
  have hclip : 1 ≤ (text.take MAX_TEXT_LENGTH).length := by
    rw [List.length_take]
    have : 1 ≤ text.length := List.length_pos.mpr htext
    simp [MAX_TEXT_LENGTH]
    omega
  simp only [saveHistoryEntry, hguard, Bool.false_eq_true, if_false]
  refine ⟨?_, ?_, ?_⟩
  · exact List.length_take_le _ _
  · apply List.Pairwise.sublist ((List.take_sublist _ _).map _)
    rw [List.map_cons]
    refine List.Pairwise.cons ?_ ?_
    · intro y hy
      rw [List.mem_map] at hy
      obtain ⟨e, he, rfl⟩ := hy
      have := List.of_mem_filter he
      simp only [decide_eq_true_eq] at this
      exact fun h => this h.symm
    · exact List.Pairwise.sublist ((List.filter_sublist _).map _) hdist
  · refine ⟨⟨⟨readerType, documentName,
        hashText ((text.take MAX_TEXT_LENGTH).take 2000)⟩, readerType,
        documentName, text.take MAX_TEXT_LENGTH,
        max 0 (min (((text.take MAX_TEXT_LENGTH).length : Int) - 1)
          currentIndex)⟩,
      ?_, rfl, List.length_take_le _ _, le_max_left _ _, ?_⟩
    · simp [MAX_ENTRIES]
    · have : (0 : Int) ≤ ((text.take MAX_TEXT_LENGTH).length : Int) - 1 := by
        have : (1 : Int) ≤ ((text.take MAX_TEXT_LENGTH).length : Int) := by
          exact_mod_cast hclip
        omega
      simp only []
      omega

/-- **C10, witness.** Saving `"abc"` at index 99 into an empty store: one
entry, distinct ids, text kept whole, index clamped to 2. -/
theorem claim10_witness :
    (saveHistoryEntry ReaderType.pdf "doc".toList "abc".toList 99 []).length
        ≤ MAX_ENTRIES ∧
    ((saveHistoryEntry ReaderType.pdf "doc".toList "abc".toList 99 []).map
        (fun e => e.id)).Pairwise (· ≠ ·) ∧
    ∃ e, (saveHistoryEntry ReaderType.pdf "doc".toList "abc".toList 99
        []).head? = some e ∧
      e.text = "abc".toList.take MAX_TEXT_LENGTH ∧
      e.text.length ≤ MAX_TEXT_LENGTH ∧
      0 ≤ e.currentIndex ∧ e.currentIndex ≤ (e.text.length : Int) - 1 := by
  exact claim10_history_invariants ReaderType.pdf "doc".toList "abc".toList 99
    [] (by decide) List.Pairwise.nil

end EchoLecture
